import Mathlib

set_option maxRecDepth 4000

/-!
# Verification of the IGSO(3) numerical kernel (`rfdiffusion/igso3.py`)

This file gives a shallow embedding, in exact real arithmetic, of the
SO(3)-diffusion numerical kernel: the truncated-series IGSO(3) density, its
angular log-derivative, the manifold maps (`hat`, `Log`, `log`, `Exp`,
`Omega`), the score field, and the table-building entry point
`calculate_igso3`.  Machine tensors of reals become Lean `List ℝ` /
`List (List ℝ)` values; elementwise tensor arithmetic becomes `List.map`;
`torch.cumsum` becomes `cumsum` below.  The theorems at the end of the file
settle the frozen specification claims about this code.
-/

namespace Igso3

open Real

/-- Default truncation level `L_default = 2000` from the source. -/
def L_default : ℕ := 2000

/-- Truncated sum of the IGSO(3) distribution, from `f_igso3` in the source:
`((2*ls+1) * exp(-ls*(ls+1)*t/2) * sin(omega*(ls+1/2)) / sin(omega/2)).sum()`
with `ls` ranging over `0, …, L-1`. -/
noncomputable def f_igso3 (omega t : ℝ) (L : ℕ) : ℝ :=
  ∑ l ∈ Finset.range L,
    (2 * (l : ℝ) + 1) * Real.exp (-(l : ℝ) * ((l : ℝ) + 1) * t / 2) *
      Real.sin (omega * ((l : ℝ) + 1 / 2)) / Real.sin (omega / 2)

/-- Derivative of `log f_igso3` in `omega`, from `d_logf_d_omega` in the
source.  The source obtains the per-element gradient of
`torch.log(f_igso3(omega, t, L)).sum()` by automatic differentiation; for a
scalar grid point this is the derivative of `fun w => log (f_igso3 w t L)`. -/
noncomputable def d_logf_d_omega (omega t : ℝ) (L : ℕ) : ℝ :=
  deriv (fun w => Real.log (f_igso3 w t L)) omega

/-- Marginal density of the angle of rotation, from `igso3_density_angle`:
`f_igso3(omega, t, L) * (1 - cos(omega)) / pi`. -/
noncomputable def igso3_density_angle (omega t : ℝ) (L : ℕ) : ℝ :=
  f_igso3 omega t L * (1 - Real.cos omega) / Real.pi

/-- The `torch.cumsum` of a 1-D tensor: entry `k` holds the sum of the first
`k+1` entries. -/
noncomputable def cumsum (xs : List ℝ) : List ℝ :=
  (List.range xs.length).map fun k => ((xs.take (k + 1)).sum)

/-- The ω grid of `calculate_igso3`:
`torch.linspace(0, np.pi, num_omega + 1)[1:]`, i.e. the `num_omega` points
`π·(i+1)/num_omega` for `i = 0, …, num_omega - 1` (the endpoint `0` of the
`num_omega + 1`-point uniform grid on `[0, π]` is dropped). -/
noncomputable def discrete_omega (num_omega : ℕ) : List ℝ :=
  (List.range num_omega).map fun (i : ℕ) => Real.pi * ((i : ℝ) + 1) / num_omega

/-- The σ grid of `calculate_igso3`:
`10 ** torch.linspace(np.log10(min_sigma), np.log10(max_sigma), num_sigma + 1)[1:]`,
i.e. the `num_sigma` points
`10 ^ (log₁₀ min_sigma + (i+1)·(log₁₀ max_sigma - log₁₀ min_sigma)/num_sigma)`. -/
noncomputable def discrete_sigma (num_sigma : ℕ) (min_sigma max_sigma : ℝ) : List ℝ :=
  (List.range num_sigma).map fun (i : ℕ) =>
    (10 : ℝ) ^ (Real.logb 10 min_sigma +
      ((i : ℝ) + 1) * (Real.logb 10 max_sigma - Real.logb 10 min_sigma) / num_sigma)

/-- The `pdf_vals` of `calculate_igso3`: for each grid σ, the marginal angle
density over the full ω grid at `t = σ²`
(`torch.vstack([igso3_density_angle(discrete_omega, sigma**2) for sigma in discrete_sigma])`). -/
noncomputable def pdf_vals (num_sigma num_omega : ℕ) (min_sigma max_sigma : ℝ) :
    List (List ℝ) :=
  (discrete_sigma num_sigma min_sigma max_sigma).map fun sigma =>
    (discrete_omega num_omega).map fun w => igso3_density_angle w (sigma ^ 2) L_default

/-- The `cdf_vals` of `calculate_igso3`:
`torch.cumsum(pdf_vals, dim=1) / num_omega * torch.pi`. -/
noncomputable def cdf_vals (num_sigma num_omega : ℕ) (min_sigma max_sigma : ℝ) :
    List (List ℝ) :=
  (pdf_vals num_sigma num_omega min_sigma max_sigma).map fun row =>
    (cumsum row).map fun x => x / num_omega * Real.pi

/-- The `score_norm` of `calculate_igso3`:
`torch.vstack([d_logf_d_omega(discrete_omega, sigma**2) for sigma in discrete_sigma])`. -/
noncomputable def score_norm_vals (num_sigma num_omega : ℕ) (min_sigma max_sigma : ℝ) :
    List (List ℝ) :=
  (discrete_sigma num_sigma min_sigma max_sigma).map fun sigma =>
    (discrete_omega num_omega).map fun w => d_logf_d_omega w (sigma ^ 2) L_default

/-- The `exp_score_norms` of `calculate_igso3`:
`torch.sqrt(torch.sum(score_norm**2 * pdf_vals, dim=1) / torch.sum(pdf_vals, dim=1))`. -/
noncomputable def exp_score_norms_vals (num_sigma num_omega : ℕ) (min_sigma max_sigma : ℝ) :
    List ℝ :=
  List.zipWith
    (fun srow prow =>
      Real.sqrt ((List.zipWith (fun s p => s ^ 2 * p) srow prow).sum / prow.sum))
    (score_norm_vals num_sigma num_omega min_sigma max_sigma)
    (pdf_vals num_sigma num_omega min_sigma max_sigma)

/-- The mapping returned by `calculate_igso3`: it has exactly the five keys
`cdf`, `score_norm`, `exp_score_norms`, `discrete_omega`, `discrete_sigma`. -/
structure IGSOTable where
  cdf : List (List ℝ)
  score_norm : List (List ℝ)
  exp_score_norms : List ℝ
  discrete_omega : List ℝ
  discrete_sigma : List ℝ

/-- The table value built by the body of `calculate_igso3`. -/
noncomputable def calcTable (num_sigma num_omega : ℕ) (min_sigma max_sigma : ℝ) :
    IGSOTable :=
  ⟨cdf_vals num_sigma num_omega min_sigma max_sigma,
   score_norm_vals num_sigma num_omega min_sigma max_sigma,
   exp_score_norms_vals num_sigma num_omega min_sigma max_sigma,
   discrete_omega num_omega,
   discrete_sigma num_sigma min_sigma max_sigma⟩

/-- The only run-time failure `calculate_igso3` can raise: `torch.vstack`
on an empty tensor list (which happens exactly when `num_sigma = 0`). -/
inductive TorchError where
  | vstackEmpty : TorchError
deriving DecidableEq

/-- The entry point `calculate_igso3` itself.  The source performs no parameter validation;
the only failing path is `torch.vstack([...])` over the empty list of σ rows
when `num_sigma = 0` (a `RuntimeError` in torch).  All other inputs, however
degenerate, produce a table. -/
noncomputable def calculate_igso3 (num_sigma num_omega : ℕ) (min_sigma max_sigma : ℝ) :
    Except TorchError IGSOTable :=
  if num_sigma = 0 then .error .vstackEmpty
  else .ok (calcTable num_sigma num_omega min_sigma max_sigma)

/-! ## Partial-value semantics for IEEE NaN

The torch tensors of the source are IEEE floating-point; the single place in
this module where the IEEE semantics differs observably from the reals is
`0/0`, which yields NaN (silently — no exception).  `FVal` is `ℝ` extended
with a NaN element (`none`); arithmetic propagates NaN, and division by zero
produces it.  (In this module a vanishing denominator `sin(ω/2)` only occurs
together with a vanishing numerator, at `ω = 0`, so mapping every division by
zero to NaN matches the IEEE `0/0 = NaN` behaviour at all inputs of
interest.) -/

/-- A real computation result that may be NaN (`none`). -/
abbrev FVal : Type := Option ℝ

/-- NaN-propagating addition. -/
noncomputable def nanAdd : FVal → FVal → FVal
  | some a, some b => some (a + b)
  | _, _ => none

/-- NaN-propagating multiplication. -/
noncomputable def nanMul : FVal → FVal → FVal
  | some a, some b => some (a * b)
  | _, _ => none

/-- NaN-propagating division; division by zero yields NaN (in this module a
zero denominator only ever occurs as IEEE `0/0`). -/
noncomputable def nanDiv : FVal → FVal → FVal
  | some a, some b => if b = 0 then none else some (a / b)
  | _, _ => none

/-- Sum of a list of possibly-NaN values (NaN-absorbing). -/
noncomputable def nanSum (xs : List FVal) : FVal := xs.foldr nanAdd (some 0)

/-- The function `f_igso3` under the NaN-aware semantics: the same term-by-term
computation as `f_igso3`, with the division performed by `nanDiv`.  The
source has no guard on `omega`, so `omega = 0` reaches the division
`sin(0·(l+1/2)) / sin(0/2) = 0/0`. -/
noncomputable def f_igso3F (omega t : ℝ) (L : ℕ) : FVal :=
  nanSum <| (List.range L).map fun (l : ℕ) =>
    nanDiv
      (nanMul (nanMul (some (2 * (l : ℝ) + 1)) (some (Real.exp (-(l : ℝ) * ((l : ℝ) + 1) * t / 2))))
        (some (Real.sin (omega * ((l : ℝ) + 1 / 2)))))
      (some (Real.sin (omega / 2)))

/-! ## Manifold operations

Vectors are `Fin 3 → ℝ`, matrices are `Matrix (Fin 3) (Fin 3) ℝ` (the source
works on batches; a batch element is a single vector/matrix). -/

/-- 3-vectors. -/
abbrev Vec3 : Type := Fin 3 → ℝ

/-- 3×3 real matrices. -/
abbrev Mat3 : Type := Matrix (Fin 3) (Fin 3) ℝ

/-- The hat map from `hat` in the source: the skew-symmetric matrix
`hat_v + (-hat_v)ᵀ` built from upper-triangular entries
`hat_v[0,1] = -v₂`, `hat_v[0,2] = v₁`, `hat_v[1,2] = -v₀`. -/
def hat (v : Vec3) : Mat3 :=
  !![0, -v 2, v 1; v 2, 0, -v 0; -v 1, v 0, 0]

/-- Cross product on `Vec3` (the action of `hat v`). -/
def cross (a b : Vec3) : Vec3 :=
  ![a 1 * b 2 - a 2 * b 1, a 2 * b 0 - a 0 * b 2, a 0 * b 1 - a 1 * b 0]

/-- Euclidean norm of a 3-vector. -/
noncomputable def vnorm (v : Vec3) : ℝ := Real.sqrt (Matrix.dotProduct v v)

/-- The map `Exp` — the exponential map from rotation vectors to rotation matrices.
Modelled from the spec: the source delegates to scipy
(`Rotation.from_rotvec(...).as_matrix()`), which the spec describes as "maps
a rotation vector to its rotation matrix via the matrix exponential.  For
zero input returns the identity matrix."  The matrix exponential of `hat v`
has the closed (Rodrigues) form used here, and with the Lean convention
`0/0 = 0` the zero vector indeed yields the identity matrix. -/
noncomputable def Exp (v : Vec3) : Mat3 :=
  1 + (Real.sin (vnorm v) / vnorm v) • hat v +
    ((1 - Real.cos (vnorm v)) / (vnorm v) ^ 2) • (hat v * hat v)

open Classical in
/-- The map `Log` — the logarithmic map from rotation matrices to rotation vectors.
Modelled from the spec: the source delegates to scipy
(`Rotation.from_matrix(...).as_rotvec()`), which the spec describes as "the
inverse of the matrix exponential restricted to angles in `[0, π]`"; for
matrices outside the image of that restriction the behaviour is
"undefined/unspecified (treat as precondition)". -/
noncomputable def Log (R : Mat3) : Vec3 :=
  if h : ∃ v : Vec3, vnorm v ≤ Real.pi ∧ Exp v = R then h.choose else 0

/-- Matrix logarithm from the source: `log(R) = hat(Log(R))`. -/
noncomputable def matlog (R : Mat3) : Mat3 := hat (Log R)

/-- Frobenius norm of a 3×3 matrix (`torch.linalg.norm(·, axis=[-2,-1])`). -/
noncomputable def frob (M : Mat3) : ℝ :=
  Real.sqrt (∑ i : Fin 3, ∑ j : Fin 3, (M i j) ^ 2)

/-- Angle of rotation from the source:
`Omega(R) = torch.linalg.norm(log(R), axis=[-2,-1]) / np.sqrt(2)`. -/
noncomputable def Omega (R : Mat3) : ℝ := frob (matlog R) / Real.sqrt 2

/-- The score from `igso3_score` in the source:
`unit_vector = einsum("Nij,Njk->Nik", R, log(R)) / omega` (matrix product
divided by the scalar angle), then
`unit_vector * d_logf_d_omega(omega, t, L)` elementwise. -/
noncomputable def igso3_score (R : Mat3) (t : ℝ) (L : ℕ) : Mat3 :=
  Matrix.of fun i j =>
    (R * matlog R) i j / Omega R * d_logf_d_omega (Omega R) t L

/-- The score as written in the spec, for comparison with `igso3_score`:
"unit_vector = (R · log(R)) / ω  [a unit-norm tangent direction];
score = unit_vector × d_logf_d_omega(ω, t, L)". -/
noncomputable def score_spec (R : Mat3) (t : ℝ) (L : ℕ) : Mat3 :=
  d_logf_d_omega (Omega R) t L • ((Omega R)⁻¹ • (R * matlog R))

/-! ## Tensor-store model for the frame effect of `d_logf_d_omega`

To talk about mutation and aliasing of torch tensors we model a store: a
tensor object holds its numeric contents and its `requires_grad` flag, the
store is the list of allocated tensor objects, and a tensor value is an index
into the store (allocation appends). -/

/-- A torch tensor object: contents plus autograd flag. -/
structure TensorObj where
  values : List ℝ
  requiresGrad : Bool

/-- The tensor store; a tensor handle is an index into it. -/
abbrev Store : Type := List TensorObj

/-- The function `d_logf_d_omega` acting on the store, mirroring the source line by line:
`omega = omega.clone().requires_grad_()` allocates a fresh tensor with the
same contents and flag `true` (the caller's tensor is not touched);
`log_f = torch.log(f_igso3(omega, t, L))` allocates the elementwise forward
value; `torch.autograd.grad(log_f.sum(), omega)[0]` allocates a fresh
gradient tensor of the same shape as `omega` (the per-element derivative of
`log ∘ f_igso3`, since the sum couples no two grid points).  Returns the new
store and the handle of the gradient tensor. -/
noncomputable def d_logf_d_omega_t (h : Store) (omega : ℕ) (t : ℝ) (L : ℕ) :
    Store × ℕ :=
  let src := h.getD omega ⟨[], false⟩
  let h1 := h ++ [⟨src.values, true⟩]
  let h2 := h1 ++ [⟨src.values.map fun w => Real.log (f_igso3 w t L), true⟩]
  let h3 := h2 ++ [⟨src.values.map fun w => deriv (fun x => Real.log (f_igso3 x t L)) w, false⟩]
  (h3, h2.length)

/-! ## List access helpers -/

/-- Entry `i` of a list built by mapping `f` over `List.range n`. -/
lemma getD_range_map (f : ℕ → ℝ) {n i : ℕ} (h : i < n) :
    ((List.range n).map f).getD i 0 = f i := by
  rw [List.getD_eq_getElem?_getD, List.getElem?_map, List.getElem?_range h]
  rfl

/-- A `cumsum` entry is the sum of the corresponding prefix. -/
lemma cumsum_getD {xs : List ℝ} {k : ℕ} (h : k < xs.length) :
    (cumsum xs).getD k 0 = ((xs.take (k + 1)).sum) := by
  rw [cumsum, getD_range_map _ h]

/-- The function `cumsum` preserves length. -/
lemma cumsum_length (xs : List ℝ) : (cumsum xs).length = xs.length := by
  simp [cumsum]

/-! ## Grid structure (claims C6 and C2) -/

/-- C6: the ω grid holds exactly `num_omega` points; entry `i` equals
`π·(i+1)/num_omega`; the smallest entry is `π/num_omega`, the largest is
`π`, and consecutive entries differ by `π/num_omega`. -/
theorem omega_grid_structure (n : ℕ) (hn : 1 ≤ n) :
    (discrete_omega n).length = n ∧
    (∀ i, i < n → (discrete_omega n).getD i 0 = Real.pi * ((i : ℝ) + 1) / n) ∧
    (discrete_omega n).getD 0 0 = Real.pi / n ∧
    (discrete_omega n).getD (n - 1) 0 = Real.pi ∧
    (∀ i, i + 1 < n →
      (discrete_omega n).getD (i + 1) 0 - (discrete_omega n).getD i 0 = Real.pi / n) := by
  have hn0 : (n : ℝ) ≠ 0 := Nat.cast_ne_zero.mpr (by omega)
  have hfor : ∀ i, i < n → (discrete_omega n).getD i 0 = Real.pi * ((i : ℝ) + 1) / n := by
    intro i hi
    rw [discrete_omega, getD_range_map _ hi]
  refine ⟨by simp [discrete_omega], hfor, ?_, ?_, ?_⟩
  · rw [hfor 0 (by omega)]
    norm_num
  · rw [hfor (n - 1) (by omega)]
    have : ((n - 1 : ℕ) : ℝ) = (n : ℝ) - 1 := by
      push_cast [Nat.cast_sub hn]
      ring
    rw [this]
    field_simp
  · intro i hi
    rw [hfor (i + 1) hi, hfor i (by omega)]
    push_cast
    field_simp
    ring

/-- Witness for `omega_grid_structure` at `num_omega = 4`. -/
theorem omega_grid_structure_witness :
    (discrete_omega 4).length = 4 ∧
    (∀ i, i < 4 → (discrete_omega 4).getD i 0 = Real.pi * ((i : ℝ) + 1) / 4) ∧
    (discrete_omega 4).getD 0 0 = Real.pi / 4 ∧
    (discrete_omega 4).getD (4 - 1) 0 = Real.pi ∧
    (∀ i, i + 1 < 4 →
      (discrete_omega 4).getD (i + 1) 0 - (discrete_omega 4).getD i 0 = Real.pi / 4) := by
  have h := omega_grid_structure 4 (by norm_num)
  norm_num at h ⊢
  exact h

/-- C2 (corrected): ω-grid entries lie in the half-open interval `(0, π]`
(the last entry equals `π`); σ-grid entries lie in `(min_sigma, max_sigma]`
(the last entry equals `max_sigma`) and are strictly increasing. -/
theorem grid_ranges (ns nw : ℕ) (mins maxs : ℝ) (hns : 1 ≤ ns) (hnw : 1 ≤ nw)
    (h0 : 0 < mins) (hmm : mins < maxs) :
    (∀ i, i < nw →
      0 < (discrete_omega nw).getD i 0 ∧ (discrete_omega nw).getD i 0 ≤ Real.pi) ∧
    (∀ i, i < ns →
      mins < (discrete_sigma ns mins maxs).getD i 0 ∧
      (discrete_sigma ns mins maxs).getD i 0 ≤ maxs) ∧
    (∀ i j, i < j → j < ns →
      (discrete_sigma ns mins maxs).getD i 0 < (discrete_sigma ns mins maxs).getD j 0) := by
  have h0' : (0 : ℝ) < maxs := h0.trans hmm
  have hb0 : (0 : ℝ) < 10 := by norm_num
  have hb1 : (10 : ℝ) ≠ 1 := by norm_num
  have hb : (1 : ℝ) < 10 := by norm_num
  set a := Real.logb 10 mins with ha
  set b := Real.logb 10 maxs with hbdef
  have hab : a < b := Real.logb_lt_logb hb h0 hmm
  have hmins : (10 : ℝ) ^ a = mins := Real.rpow_logb hb0 hb1 h0
  have hmaxs : (10 : ℝ) ^ b = maxs := Real.rpow_logb hb0 hb1 h0'
  have hsig : ∀ i, i < ns → (discrete_sigma ns mins maxs).getD i 0 =
      (10 : ℝ) ^ (a + ((i : ℝ) + 1) * (b - a) / ns) := by
    intro i hi
    rw [discrete_sigma, getD_range_map _ hi]
  have hns0 : (0 : ℝ) < (ns : ℝ) := by exact_mod_cast Nat.pos_of_ne_zero (by omega)
  refine ⟨?_, ?_, ?_⟩
  · intro i hi
    rw [discrete_omega, getD_range_map _ hi]
    have hnw0 : (0 : ℝ) < (nw : ℝ) := by exact_mod_cast Nat.pos_of_ne_zero (by omega)
    have hi1 : (0 : ℝ) < (i : ℝ) + 1 := by positivity
    constructor
    · positivity
    · rw [div_le_iff₀ hnw0]
      have : (i : ℝ) + 1 ≤ (nw : ℝ) := by exact_mod_cast Nat.succ_le_of_lt hi
      nlinarith [Real.pi_pos]
  · intro i hi
    rw [hsig i hi]
    constructor
    · rw [← hmins]
      rw [Real.rpow_lt_rpow_left_iff hb]
      have : (0 : ℝ) < ((i : ℝ) + 1) * (b - a) / ns := by
        apply div_pos (mul_pos (by positivity) (by linarith)) hns0
      linarith
    · rw [← hmaxs]
      rw [Real.rpow_le_rpow_left_iff hb]
      have hle : ((i : ℝ) + 1) * (b - a) / ns ≤ b - a := by
        rw [div_le_iff₀ hns0]
        have : (i : ℝ) + 1 ≤ (ns : ℝ) := by exact_mod_cast Nat.succ_le_of_lt hi
        nlinarith
      linarith
  · intro i j hij hj
    rw [hsig i (by omega), hsig j hj]
    rw [Real.rpow_lt_rpow_left_iff hb]
    have hij' : ((i : ℝ) + 1) * (b - a) < ((j : ℝ) + 1) * (b - a) := by
      have hijr : (i : ℝ) < (j : ℝ) := by exact_mod_cast hij
      nlinarith
    have : ((i : ℝ) + 1) * (b - a) / ns < ((j : ℝ) + 1) * (b - a) / ns :=
      (div_lt_div_iff_of_pos_right hns0).mpr hij'
    linarith

/-- Witness for `grid_ranges` at `num_sigma = num_omega = 1`,
`min_sigma = 1`, `max_sigma = 10`. -/
theorem grid_ranges_witness :
    (0 : ℝ) < 1 ∧ (1 : ℝ) < 10 ∧
    (∀ i, i < 1 →
      0 < (discrete_omega 1).getD i 0 ∧ (discrete_omega 1).getD i 0 ≤ Real.pi) ∧
    (∀ i, i < 1 →
      (1 : ℝ) < (discrete_sigma 1 1 10).getD i 0 ∧
      (discrete_sigma 1 1 10).getD i 0 ≤ 10) ∧
    (∀ i j, i < j → j < 1 →
      (discrete_sigma 1 1 10).getD i 0 < (discrete_sigma 1 1 10).getD j 0) := by
  have h := grid_ranges 1 1 (1 : ℝ) 10 (le_refl 1) (le_refl 1) (by norm_num) (by norm_num)
  exact ⟨by norm_num, by norm_num, h.1, h.2.1, h.2.2⟩

/-- C2 counterexample: at the valid input `num_omega = 1` the single ω-grid
entry equals `π`, so the grid entries do not all lie strictly below `π`. -/
theorem omega_grid_not_strictly_below_pi :
    ¬ (∀ i, i < 1 → (discrete_omega 1).getD i 0 < Real.pi) := by
  intro h
  have h0 := h 0 (by norm_num)
  rw [discrete_omega, getD_range_map _ (by norm_num)] at h0
  norm_num at h0

/-! ## Shape contract and absence of validation (claims C5 and C1) -/

/-- C5: for every valid input, `calculate_igso3` returns the mapping with
exactly the keys `cdf`, `score_norm`, `exp_score_norms`, `discrete_omega`,
`discrete_sigma` (the fields of `IGSOTable`), with shapes
`(num_sigma, num_omega)`, `(num_sigma, num_omega)`, `(num_sigma,)`,
`(num_omega,)`, `(num_sigma,)` respectively. -/
theorem calculate_igso3_shapes (ns nw : ℕ) (mins maxs : ℝ)
    (hns : 1 ≤ ns) (hnw : 1 ≤ nw) (h0 : 0 < mins) (hmm : mins < maxs) :
    calculate_igso3 ns nw mins maxs = .ok (calcTable ns nw mins maxs) ∧
    (calcTable ns nw mins maxs).cdf.length = ns ∧
    (∀ row ∈ (calcTable ns nw mins maxs).cdf, row.length = nw) ∧
    (calcTable ns nw mins maxs).score_norm.length = ns ∧
    (∀ row ∈ (calcTable ns nw mins maxs).score_norm, row.length = nw) ∧
    (calcTable ns nw mins maxs).exp_score_norms.length = ns ∧
    (calcTable ns nw mins maxs).discrete_omega.length = nw ∧
    (calcTable ns nw mins maxs).discrete_sigma.length = ns := by
  refine ⟨?_, ?_, ?_, ?_, ?_, ?_, ?_, ?_⟩
  · rw [calculate_igso3, if_neg (by omega)]
  · simp [calcTable, cdf_vals, pdf_vals, discrete_sigma]
  · intro row hrow
    simp only [calcTable] at hrow
    rw [cdf_vals] at hrow
    obtain ⟨prow, hp, rfl⟩ := List.mem_map.mp hrow
    rw [pdf_vals] at hp
    obtain ⟨sigma, hs, rfl⟩ := List.mem_map.mp hp
    simp [cumsum_length, discrete_omega]
  · simp [calcTable, score_norm_vals, discrete_sigma]
  · intro row hrow
    simp only [calcTable] at hrow
    rw [score_norm_vals] at hrow
    obtain ⟨sigma, hs, rfl⟩ := List.mem_map.mp hrow
    simp [discrete_omega]
  · simp [calcTable, exp_score_norms_vals, score_norm_vals, pdf_vals, discrete_sigma]
  · simp [calcTable, discrete_omega]
  · simp [calcTable, discrete_sigma]

/-- Witness for `calculate_igso3_shapes` at the spec's shape-contract
example `num_sigma = 2`, `num_omega = 4`, `min_sigma = 0.1`,
`max_sigma = 1`. -/
theorem calculate_igso3_shapes_witness :
    calculate_igso3 2 4 (1 / 10) 1 = .ok (calcTable 2 4 (1 / 10) 1) ∧
    (calcTable 2 4 (1 / 10) 1).cdf.length = 2 ∧
    (∀ row ∈ (calcTable 2 4 (1 / 10) 1).cdf, row.length = 4) ∧
    (calcTable 2 4 (1 / 10) 1).score_norm.length = 2 ∧
    (∀ row ∈ (calcTable 2 4 (1 / 10) 1).score_norm, row.length = 4) ∧
    (calcTable 2 4 (1 / 10) 1).exp_score_norms.length = 2 ∧
    (calcTable 2 4 (1 / 10) 1).discrete_omega.length = 4 ∧
    (calcTable 2 4 (1 / 10) 1).discrete_sigma.length = 2 :=
  calculate_igso3_shapes 2 4 (1 / 10) 1 (by norm_num) (by norm_num) (by norm_num)
    (by norm_num)

/-- C1 (corrected): `calculate_igso3` performs no parameter validation.
With `num_omega = 0` — input the spec requires to be rejected with
InvalidParameter — and any `num_sigma ≥ 1` and any sigma bounds whatsoever
(including `min_sigma ≤ 0` and `max_sigma ≤ min_sigma`), the call succeeds
and returns a table whose ω-indexed arrays are empty.  The only failing
input is `num_sigma = 0`, and the failure is torch's `vstack` error on an
empty tensor list, not InvalidParameter. -/
theorem calculate_igso3_no_validation (ns : ℕ) (mins maxs : ℝ) (hns : 1 ≤ ns) :
    calculate_igso3 ns 0 mins maxs = .ok (calcTable ns 0 mins maxs) ∧
    (calcTable ns 0 mins maxs).discrete_omega = [] ∧
    (calcTable ns 0 mins maxs).cdf.length = ns ∧
    (∀ row ∈ (calcTable ns 0 mins maxs).cdf, row = []) ∧
    (∀ nw, calculate_igso3 0 nw mins maxs = .error .vstackEmpty) := by
  refine ⟨?_, ?_, ?_, ?_, ?_⟩
  · rw [calculate_igso3, if_neg (by omega)]
  · simp [calcTable, discrete_omega]
  · simp [calcTable, cdf_vals, pdf_vals, discrete_sigma]
  · intro row hrow
    simp only [calcTable] at hrow
    rw [cdf_vals] at hrow
    obtain ⟨prow, hp, rfl⟩ := List.mem_map.mp hrow
    rw [pdf_vals] at hp
    obtain ⟨sigma, hs, rfl⟩ := List.mem_map.mp hp
    simp [cumsum, discrete_omega]
  · intro nw
    rw [calculate_igso3, if_pos rfl]

/-- Witness for `calculate_igso3_no_validation` at `num_sigma = 2` and the
(per the spec, rejectable) bounds `min_sigma = -1`, `max_sigma = 10`. -/
theorem calculate_igso3_no_validation_witness :
    calculate_igso3 2 0 (-1) 10 = .ok (calcTable 2 0 (-1) 10) ∧
    (calcTable 2 0 (-1) 10).discrete_omega = [] ∧
    (calcTable 2 0 (-1) 10).cdf.length = 2 ∧
    (∀ row ∈ (calcTable 2 0 (-1) 10).cdf, row = []) ∧
    (∀ nw, calculate_igso3 0 nw (-1) 10 = .error .vstackEmpty) :=
  calculate_igso3_no_validation 2 (-1) 10 (by norm_num)

/-- C1 counterexample: `calculate_igso3(num_sigma=1, num_omega=0,
min_sigma=1, max_sigma=10)` has `num_omega < 1`, which the spec says must
fail with InvalidParameter before any array is computed — yet the call does
not fail: it returns a table. -/
theorem calculate_igso3_invalid_input_returns :
    calculate_igso3 1 0 1 10 = .ok (calcTable 1 0 1 10) := by
  rw [calculate_igso3, if_neg (by norm_num)]

/-! ## Evaluation at ω = 0 (claim C3) -/

/-- At `ω = 0` the first series term divides `sin 0` by `sin 0`; the NaN
propagates through the sum. -/
lemma f_igso3F_zero (t : ℝ) (L : ℕ) (hL : 1 ≤ L) :
    f_igso3F 0 t L = none := by
  obtain ⟨M, rfl⟩ : ∃ M, L = M + 1 := ⟨L - 1, by omega⟩
  rw [f_igso3F, List.range_succ_eq_map, List.map_cons, nanSum, List.foldr_cons]
  have hterm :
      nanDiv
        (nanMul
          (nanMul (some (2 * ((0 : ℕ) : ℝ) + 1))
            (some (Real.exp (-((0 : ℕ) : ℝ) * (((0 : ℕ) : ℝ) + 1) * t / 2))))
          (some (Real.sin (0 * (((0 : ℕ) : ℝ) + 1 / 2)))))
        (some (Real.sin (0 / 2))) = none := by
    rw [nanMul, nanMul, nanDiv]
    norm_num
  rw [hterm]
  rfl

/-- C3 (corrected): evaluating `f_igso3` at exactly `ω = 0` raises no error;
the division `sin(ω·(l+1/2)) / sin(ω/2)` is the IEEE `0/0` in its very first
term, so the call silently returns NaN (for every `t` and every truncation
level `L ≥ 1`). -/
theorem f_igso3_nan_at_zero (t : ℝ) (L : ℕ) (hL : 1 ≤ L) :
    f_igso3F 0 t L = none :=
  f_igso3F_zero t L hL

/-- Witness for `f_igso3_nan_at_zero` at `t = 2`, `L = 5`. -/
theorem f_igso3_nan_at_zero_witness : f_igso3F 0 2 5 = none :=
  f_igso3_nan_at_zero 2 5 (by norm_num)

/-- C3 counterexample: the direct evaluation `f_igso3(ω = 0, t = 1,
L = 2000)` does not fail — the embedded computation is total — and the value
it silently produces is NaN. -/
theorem f_igso3_at_zero_is_nan : f_igso3F 0 1 2000 = none :=
  f_igso3F_zero 1 2000 (by norm_num)

/-! ## Frame effect of `d_logf_d_omega` (claim C10) -/

/-- C10: calling `d_logf_d_omega` leaves the caller's tensor unchanged —
the gradient is computed on a clone, so after the call the input handle
still refers to the same contents and the same `requires_grad` flag — and
the returned gradient is a freshly allocated tensor (its handle points past
every pre-existing tensor) of the same shape as the input. -/
theorem d_logf_d_omega_frame (h : Store) (i : ℕ) (t : ℝ) (L : ℕ) (hi : i < h.length) :
    ((d_logf_d_omega_t h i t L).1).getD i ⟨[], false⟩ = h.getD i ⟨[], false⟩ ∧
    h.length ≤ (d_logf_d_omega_t h i t L).2 ∧
    (((d_logf_d_omega_t h i t L).1).getD (d_logf_d_omega_t h i t L).2
        ⟨[], false⟩).values.length
      = (h.getD i ⟨[], false⟩).values.length := by
  refine ⟨?_, ?_, ?_⟩
  · show ((h ++ _ ++ _ ++ _).getD i _) = _
    rw [List.getD_append _ _ _ _ (by simp; omega),
      List.getD_append _ _ _ _ (by simp; omega),
      List.getD_append _ _ _ _ hi]
  · show h.length ≤ (h ++ _ ++ _).length
    simp
  · show ((h ++ _ ++ _ ++ _).getD (h ++ _ ++ _).length _).values.length = _
    rw [List.getD_append_right _ _ _ _ (le_refl _)]
    simp

/-- Witness for `d_logf_d_omega_frame`: a one-tensor store whose tensor
holds the single grid point `ω = 1` with `requires_grad = false`. -/
theorem d_logf_d_omega_frame_witness :
    ((d_logf_d_omega_t [⟨[1], false⟩] 0 1 2000).1).getD 0 ⟨[], false⟩
        = ([⟨[1], false⟩] : Store).getD 0 ⟨[], false⟩ ∧
    ([⟨[1], false⟩] : Store).length ≤ (d_logf_d_omega_t [⟨[1], false⟩] 0 1 2000).2 ∧
    (((d_logf_d_omega_t [⟨[1], false⟩] 0 1 2000).1).getD
        (d_logf_d_omega_t [⟨[1], false⟩] 0 1 2000).2 ⟨[], false⟩).values.length
      = (([⟨[1], false⟩] : Store).getD 0 ⟨[], false⟩).values.length :=
  d_logf_d_omega_frame [⟨[1], false⟩] 0 1 2000 (by norm_num)

/-! ## Series estimates for `f_igso3` (claims C7 and C4) -/

/-- Gauss sum over the reals. -/
lemma sum_range_cast_real (n : ℕ) : ∑ i ∈ Finset.range n, (i : ℝ) = n * (n - 1) / 2 := by
  induction n with
  | zero => simp
  | succ m ih =>
    rw [Finset.sum_range_succ, ih]
    push_cast
    ring

/-- Closed form of the affine group bound summed over the groups. -/
lemma sum_group_bound (d : ℝ) (n : ℕ) :
    ∑ k ∈ Finset.range n, (-8 + (16 * (k : ℝ) + 12) * d)
      = -8 * n + (8 * n * (n - 1) + 12 * n) * d := by
  induction n with
  | zero => simp
  | succ m ih =>
    rw [Finset.sum_range_succ, ih]
    push_cast
    ring

/-- The exponential damping factor of series term `l` is at most `1`. -/
lemma exp_term_le_one (l : ℕ) {t : ℝ} (ht : 0 ≤ t) :
    Real.exp (-(l : ℝ) * ((l : ℝ) + 1) * t / 2) ≤ 1 := by
  rw [Real.exp_le_one_iff]
  have hl : (0 : ℝ) ≤ (l : ℝ) * ((l : ℝ) + 1) * t := by positivity
  linarith

/-- First-order lower bound for the exponential damping factor. -/
lemma one_sub_le_exp_term (l : ℕ) (t : ℝ) :
    1 - (l : ℝ) * ((l : ℝ) + 1) * t / 2 ≤ Real.exp (-(l : ℝ) * ((l : ℝ) + 1) * t / 2) := by
  have h := Real.add_one_le_exp (-(l : ℝ) * ((l : ℝ) + 1) * t / 2)
  linarith

/-- For `l ≥ 1` and `t > 0` the damping factor is at most `exp (-t)`. -/
lemma exp_term_le_exp_neg (l : ℕ) (hl : 1 ≤ l) {t : ℝ} (ht : 0 < t) :
    Real.exp (-(l : ℝ) * ((l : ℝ) + 1) * t / 2) ≤ Real.exp (-t) := by
  apply Real.exp_le_exp.mpr
  have hl' : (1 : ℝ) ≤ (l : ℝ) := by exact_mod_cast hl
  have h2 : (0 : ℝ) ≤ t * ((l : ℝ) * ((l : ℝ) + 1) - 2) := by
    apply mul_nonneg ht.le
    nlinarith
  linarith

/-- If the damping `4·10⁶·exp(-t)` of the series tail is smaller than the
denominator `sin(ω/2)`, the truncated series at `L = 2000` is positive: the
`l = 0` term equals `1` and dominates the tail. -/
lemma f_igso3_pos_of_large_t {ω t : ℝ} (h0 : 0 < ω) (hπ : ω ≤ Real.pi)
    (ht : 0 < t) (hcond : 4000000 * Real.exp (-t) < Real.sin (ω / 2)) :
    0 < f_igso3 ω t 2000 := by
  have hs : 0 < Real.sin (ω / 2) := by
    apply Real.sin_pos_of_pos_of_lt_pi (by linarith)
    have := Real.pi_pos
    linarith
  have hsne : Real.sin (ω / 2) ≠ 0 := ne_of_gt hs
  rw [f_igso3, show (2000 : ℕ) = 1999 + 1 by norm_num, Finset.sum_range_succ']
  have hterm0 :
      (2 * ((0 : ℕ) : ℝ) + 1) * Real.exp (-((0 : ℕ) : ℝ) * (((0 : ℕ) : ℝ) + 1) * t / 2) *
        Real.sin (ω * (((0 : ℕ) : ℝ) + 1 / 2)) / Real.sin (ω / 2) = 1 := by
    have harg : ω * (((0 : ℕ) : ℝ) + 1 / 2) = ω / 2 := by push_cast; ring
    have hexp : -((0 : ℕ) : ℝ) * (((0 : ℕ) : ℝ) + 1) * t / 2 = 0 := by push_cast; ring
    rw [harg, hexp, Real.exp_zero]
    push_cast
    field_simp
  rw [hterm0]
  have htail : ∀ i ∈ Finset.range 1999,
      -((2 * (i : ℝ) + 3) * (Real.exp (-t) / Real.sin (ω / 2))) ≤
      (2 * ((i + 1 : ℕ) : ℝ) + 1) *
        Real.exp (-((i + 1 : ℕ) : ℝ) * (((i + 1 : ℕ) : ℝ) + 1) * t / 2) *
        Real.sin (ω * (((i + 1 : ℕ) : ℝ) + 1 / 2)) / Real.sin (ω / 2) := by
    intro i _
    have hX : (0 : ℝ) < 2 * ((i + 1 : ℕ) : ℝ) + 1 := by positivity
    have hc1 : Real.exp (-((i + 1 : ℕ) : ℝ) * (((i + 1 : ℕ) : ℝ) + 1) * t / 2) ≤
        Real.exp (-t) := exp_term_le_exp_neg (i + 1) (by omega) ht
    have hcpos : 0 < Real.exp (-((i + 1 : ℕ) : ℝ) * (((i + 1 : ℕ) : ℝ) + 1) * t / 2) :=
      Real.exp_pos _
    have hsin : -1 ≤ Real.sin (ω * (((i + 1 : ℕ) : ℝ) + 1 / 2)) := Real.neg_one_le_sin _
    have hlhs : -((2 * (i : ℝ) + 3) * (Real.exp (-t) / Real.sin (ω / 2)))
        = -((2 * ((i + 1 : ℕ) : ℝ) + 1) * Real.exp (-t)) / Real.sin (ω / 2) := by
      push_cast
      ring
    rw [hlhs, div_le_div_iff_of_pos_right hs]
    have hA : (0 : ℝ) ≤ (2 * ((i + 1 : ℕ) : ℝ) + 1) *
        Real.exp (-((i + 1 : ℕ) : ℝ) * (((i + 1 : ℕ) : ℝ) + 1) * t / 2) := by positivity
    have h1 := mul_le_mul_of_nonneg_left hsin hA
    have h2 := mul_le_mul_of_nonneg_left hc1 (le_of_lt hX)
    nlinarith
  have hsums : -(3999999 * (Real.exp (-t) / Real.sin (ω / 2))) ≤
      ∑ i ∈ Finset.range 1999,
        (2 * ((i + 1 : ℕ) : ℝ) + 1) *
          Real.exp (-((i + 1 : ℕ) : ℝ) * (((i + 1 : ℕ) : ℝ) + 1) * t / 2) *
          Real.sin (ω * (((i + 1 : ℕ) : ℝ) + 1 / 2)) / Real.sin (ω / 2) := by
    have h1 := Finset.sum_le_sum htail
    have h2 : ∑ i ∈ Finset.range 1999,
        -((2 * (i : ℝ) + 3) * (Real.exp (-t) / Real.sin (ω / 2)))
        = -(3999999 * (Real.exp (-t) / Real.sin (ω / 2))) := by
      rw [Finset.sum_neg_distrib, ← Finset.sum_mul]
      congr 1
      rw [Finset.sum_add_distrib, ← Finset.mul_sum, sum_range_cast_real, Finset.sum_const,
        Finset.card_range]
      push_cast
      norm_num
    linarith
  have hfrac : 3999999 * (Real.exp (-t) / Real.sin (ω / 2)) < 1 := by
    rw [← mul_div_assoc, div_lt_one hs]
    have hE : 0 < Real.exp (-t) := Real.exp_pos _
    nlinarith
  linarith

/-- Numeric tail bound: `4·10⁶ · exp(-100) < 1/2`. -/
lemma exp_neg_hundred_small : 4000000 * Real.exp (-(100 : ℝ)) < 1 / 2 := by
  have h11 : (11 : ℝ) ≤ Real.exp 10 := by
    have h := Real.add_one_le_exp (10 : ℝ)
    linarith
  have hexp100 : Real.exp (100 : ℝ) = Real.exp 10 ^ (10 : ℕ) := by
    rw [← Real.exp_nat_mul]
    norm_num
  have hbig : (25937424601 : ℝ) ≤ Real.exp 100 := by
    rw [hexp100]
    calc (25937424601 : ℝ) = 11 ^ (10 : ℕ) := by norm_num
      _ ≤ Real.exp 10 ^ (10 : ℕ) := pow_le_pow_left (by norm_num) h11 10
  have hpos : (0 : ℝ) < Real.exp 100 := Real.exp_pos _
  have hinvpos : 0 < (Real.exp (100 : ℝ))⁻¹ := inv_pos.mpr hpos
  have hkey : (25937424601 : ℝ) * (Real.exp (100 : ℝ))⁻¹ ≤ 1 := by
    calc (25937424601 : ℝ) * (Real.exp (100 : ℝ))⁻¹
        ≤ Real.exp 100 * (Real.exp (100 : ℝ))⁻¹ :=
          mul_le_mul_of_nonneg_right hbig (le_of_lt hinvpos)
      _ = 1 := mul_inv_cancel₀ (ne_of_gt hpos)
  rw [Real.exp_neg]
  linarith

/-- C7 (corrected): the truncated series value `f_igso3(ω, t, 2000)` is
strictly positive for every `ω ∈ (0, π)` and `t > 0` in the regime where
the series tail is dominated, namely whenever
`4·10⁶ · exp(-t) < sin(ω/2)`; without such a bound positivity fails for
small `t` (see the counterexample). -/
theorem f_igso3_pos (ω t : ℝ) (h0 : 0 < ω) (hπ : ω < Real.pi) (ht : 0 < t)
    (hcond : 4000000 * Real.exp (-t) < Real.sin (ω / 2)) :
    0 < f_igso3 ω t 2000 :=
  f_igso3_pos_of_large_t h0 (le_of_lt hπ) ht hcond

/-- Witness for `f_igso3_pos` at `ω = π/2`, `t = 100`. -/
theorem f_igso3_pos_witness :
    0 < Real.pi / 2 ∧ Real.pi / 2 < Real.pi ∧ (0 : ℝ) < 100 ∧
    4000000 * Real.exp (-(100 : ℝ)) < Real.sin (Real.pi / 2 / 2) ∧
    0 < f_igso3 (Real.pi / 2) 100 2000 := by
  have hπ := Real.pi_pos
  have h1 : 0 < Real.pi / 2 := by linarith
  have h2 : Real.pi / 2 < Real.pi := by linarith
  have hcond : 4000000 * Real.exp (-(100 : ℝ)) < Real.sin (Real.pi / 2 / 2) := by
    have hs : Real.sin (Real.pi / 2 / 2) = Real.sqrt 2 / 2 := by
      rw [show Real.pi / 2 / 2 = Real.pi / 4 by ring, Real.sin_pi_div_four]
    have h12 : (1 : ℝ) ≤ Real.sqrt 2 := by
      nlinarith [Real.sq_sqrt (show (0 : ℝ) ≤ 2 by norm_num), Real.sqrt_nonneg 2]
    have h3 := exp_neg_hundred_small
    rw [hs]
    linarith
  exact ⟨h1, h2, by norm_num, hcond,
    f_igso3_pos (Real.pi / 2) 100 h1 h2 (by norm_num) hcond⟩

/-- Splitting a sum over `range (4·n)` into groups of four consecutive
terms. -/
lemma sum_range_four_mul (g : ℕ → ℝ) (n : ℕ) :
    ∑ l ∈ Finset.range (4 * n), g l
      = ∑ k ∈ Finset.range n,
          (g (4 * k) + g (4 * k + 1) + g (4 * k + 2) + g (4 * k + 3)) := by
  induction n with
  | zero => simp
  | succ m ih =>
    rw [show 4 * (m + 1) = (4 * m + 3) + 1 by ring, Finset.sum_range_succ,
      show 4 * m + 3 = (4 * m + 2) + 1 by ring, Finset.sum_range_succ,
      show 4 * m + 2 = (4 * m + 1) + 1 by ring, Finset.sum_range_succ,
      Finset.sum_range_succ, ih, Finset.sum_range_succ]
    ring

/-- At `ω = π/2` the sine factor of series term `l = 4k` equals the
denominator `sin(π/4)`. -/
lemma sin_term_r0 (k : ℕ) :
    Real.sin (Real.pi / 2 * (((4 * k : ℕ) : ℝ) + 1 / 2)) = Real.sin (Real.pi / 2 / 2) := by
  have harg : Real.pi / 2 * (((4 * k : ℕ) : ℝ) + 1 / 2)
      = Real.pi / 2 / 2 + (k : ℕ) * (2 * Real.pi) := by push_cast; ring
  rw [harg, Real.sin_add_nat_mul_two_pi]

/-- At `ω = π/2` the sine factor of series term `l = 4k + 1` equals the
denominator `sin(π/4)`. -/
lemma sin_term_r1 (k : ℕ) :
    Real.sin (Real.pi / 2 * (((4 * k + 1 : ℕ) : ℝ) + 1 / 2)) = Real.sin (Real.pi / 2 / 2) := by
  have harg : Real.pi / 2 * (((4 * k + 1 : ℕ) : ℝ) + 1 / 2)
      = (Real.pi - Real.pi / 4) + (k : ℕ) * (2 * Real.pi) := by push_cast; ring
  rw [harg, Real.sin_add_nat_mul_two_pi, Real.sin_pi_sub,
    show Real.pi / 4 = Real.pi / 2 / 2 by ring]

/-- At `ω = π/2` the sine factor of series term `l = 4k + 2` equals minus
the denominator. -/
lemma sin_term_r2 (k : ℕ) :
    Real.sin (Real.pi / 2 * (((4 * k + 2 : ℕ) : ℝ) + 1 / 2)) = -Real.sin (Real.pi / 2 / 2) := by
  have harg : Real.pi / 2 * (((4 * k + 2 : ℕ) : ℝ) + 1 / 2)
      = (Real.pi - -(Real.pi / 4)) + (k : ℕ) * (2 * Real.pi) := by push_cast; ring
  rw [harg, Real.sin_add_nat_mul_two_pi, Real.sin_pi_sub, Real.sin_neg,
    show Real.pi / 4 = Real.pi / 2 / 2 by ring]

/-- At `ω = π/2` the sine factor of series term `l = 4k + 3` equals minus
the denominator. -/
lemma sin_term_r3 (k : ℕ) :
    Real.sin (Real.pi / 2 * (((4 * k + 3 : ℕ) : ℝ) + 1 / 2)) = -Real.sin (Real.pi / 2 / 2) := by
  have harg : Real.pi / 2 * (((4 * k + 3 : ℕ) : ℝ) + 1 / 2)
      = -(Real.pi / 4) + ((k + 1 : ℕ) : ℝ) * (2 * Real.pi) := by push_cast; ring
  rw [harg, Real.sin_add_nat_mul_two_pi, Real.sin_neg,
    show Real.pi / 4 = Real.pi / 2 / 2 by ring]

/-- At `ω = π/2` and the tiny variance `t = 10⁻¹²` the truncated series at
the default truncation `L = 2000` is negative: the sine ratio cycles through
`1, 1, -1, -1`, so each group of four consecutive terms sums to roughly
`-8`, and the exponential damping (at most `2·10⁻⁶` per exponent) cannot
compensate. -/
lemma f_igso3_pi_half_neg : f_igso3 (Real.pi / 2) (1 / 10 ^ 12) 2000 < 0 := by
  rw [f_igso3, show (2000 : ℕ) = 4 * 500 by norm_num, sum_range_four_mul]
  have hgroup : ∀ k ∈ Finset.range 500,
      ((2 * ((4 * k : ℕ) : ℝ) + 1) *
          Real.exp (-((4 * k : ℕ) : ℝ) * (((4 * k : ℕ) : ℝ) + 1) * (1 / 10 ^ 12 : ℝ) / 2) *
          Real.sin (Real.pi / 2 * (((4 * k : ℕ) : ℝ) + 1 / 2)) / Real.sin (Real.pi / 2 / 2)
        + (2 * ((4 * k + 1 : ℕ) : ℝ) + 1) *
          Real.exp (-((4 * k + 1 : ℕ) : ℝ) * (((4 * k + 1 : ℕ) : ℝ) + 1) *
            (1 / 10 ^ 12 : ℝ) / 2) *
          Real.sin (Real.pi / 2 * (((4 * k + 1 : ℕ) : ℝ) + 1 / 2)) / Real.sin (Real.pi / 2 / 2)
        + (2 * ((4 * k + 2 : ℕ) : ℝ) + 1) *
          Real.exp (-((4 * k + 2 : ℕ) : ℝ) * (((4 * k + 2 : ℕ) : ℝ) + 1) *
            (1 / 10 ^ 12 : ℝ) / 2) *
          Real.sin (Real.pi / 2 * (((4 * k + 2 : ℕ) : ℝ) + 1 / 2)) / Real.sin (Real.pi / 2 / 2)
        + (2 * ((4 * k + 3 : ℕ) : ℝ) + 1) *
          Real.exp (-((4 * k + 3 : ℕ) : ℝ) * (((4 * k + 3 : ℕ) : ℝ) + 1) *
            (1 / 10 ^ 12 : ℝ) / 2) *
          Real.sin (Real.pi / 2 * (((4 * k + 3 : ℕ) : ℝ) + 1 / 2)) / Real.sin (Real.pi / 2 / 2))
        ≤ -8 + (16 * (k : ℝ) + 12) * (2 / 10 ^ 6) := by
    intro k hk
    rw [Finset.mem_range] at hk
    rw [sin_term_r0 k, sin_term_r1 k, sin_term_r2 k, sin_term_r3 k]
    set s : ℝ := Real.sin (Real.pi / 2 / 2) with hsdef
    have hsne : s ≠ 0 := by
      rw [hsdef, show Real.pi / 2 / 2 = Real.pi / 4 by ring, Real.sin_pi_div_four]
      positivity
    set c0 : ℝ := Real.exp (-((4 * k : ℕ) : ℝ) * (((4 * k : ℕ) : ℝ) + 1) * (1 / 10 ^ 12 : ℝ) / 2)
      with hc0def
    set c1 : ℝ :=
      Real.exp (-((4 * k + 1 : ℕ) : ℝ) * (((4 * k + 1 : ℕ) : ℝ) + 1) * (1 / 10 ^ 12 : ℝ) / 2)
      with hc1def
    set c2 : ℝ :=
      Real.exp (-((4 * k + 2 : ℕ) : ℝ) * (((4 * k + 2 : ℕ) : ℝ) + 1) * (1 / 10 ^ 12 : ℝ) / 2)
      with hc2def
    set c3 : ℝ :=
      Real.exp (-((4 * k + 3 : ℕ) : ℝ) * (((4 * k + 3 : ℕ) : ℝ) + 1) * (1 / 10 ^ 12 : ℝ) / 2)
      with hc3def
    have hclean :
        (2 * ((4 * k : ℕ) : ℝ) + 1) * c0 * s / s
          + (2 * ((4 * k + 1 : ℕ) : ℝ) + 1) * c1 * s / s
          + (2 * ((4 * k + 2 : ℕ) : ℝ) + 1) * c2 * -s / s
          + (2 * ((4 * k + 3 : ℕ) : ℝ) + 1) * c3 * -s / s
        = (2 * ((4 * k : ℕ) : ℝ) + 1) * c0 + (2 * ((4 * k + 1 : ℕ) : ℝ) + 1) * c1
          - (2 * ((4 * k + 2 : ℕ) : ℝ) + 1) * c2 - (2 * ((4 * k + 3 : ℕ) : ℝ) + 1) * c3 := by
      field_simp
      ring
    rw [hclean]
    have hkr : (k : ℝ) ≤ 499 := by exact_mod_cast Nat.lt_succ_iff.mp hk
    have hknn : (0 : ℝ) ≤ (k : ℝ) := Nat.cast_nonneg k
    have hc0le : c0 ≤ 1 := exp_term_le_one _ (by norm_num)
    have hc1le : c1 ≤ 1 := exp_term_le_one _ (by norm_num)
    have hd2 : ((4 * k + 2 : ℕ) : ℝ) * (((4 * k + 2 : ℕ) : ℝ) + 1) * (1 / 10 ^ 12 : ℝ) / 2
        ≤ 2 / 10 ^ 6 := by
      push_cast
      nlinarith
    have hd3 : ((4 * k + 3 : ℕ) : ℝ) * (((4 * k + 3 : ℕ) : ℝ) + 1) * (1 / 10 ^ 12 : ℝ) / 2
        ≤ 2 / 10 ^ 6 := by
      push_cast
      nlinarith
    have hc2ge : 1 - 2 / 10 ^ 6 ≤ c2 := by
      have h := one_sub_le_exp_term (4 * k + 2) (1 / 10 ^ 12 : ℝ)
      rw [← hc2def] at h
      linarith
    have hc3ge : 1 - 2 / 10 ^ 6 ≤ c3 := by
      have h := one_sub_le_exp_term (4 * k + 3) (1 / 10 ^ 12 : ℝ)
      rw [← hc3def] at h
      linarith
    have hX0 : (0 : ℝ) ≤ 2 * ((4 * k : ℕ) : ℝ) + 1 := by positivity
    have hX1 : (0 : ℝ) ≤ 2 * ((4 * k + 1 : ℕ) : ℝ) + 1 := by positivity
    have hX2 : (0 : ℝ) ≤ 2 * ((4 * k + 2 : ℕ) : ℝ) + 1 := by positivity
    have hX3 : (0 : ℝ) ≤ 2 * ((4 * k + 3 : ℕ) : ℝ) + 1 := by positivity
    have hb0 : (2 * ((4 * k : ℕ) : ℝ) + 1) * c0 ≤ 2 * ((4 * k : ℕ) : ℝ) + 1 :=
      mul_le_of_le_one_right hX0 hc0le
    have hb1 : (2 * ((4 * k + 1 : ℕ) : ℝ) + 1) * c1 ≤ 2 * ((4 * k + 1 : ℕ) : ℝ) + 1 :=
      mul_le_of_le_one_right hX1 hc1le
    have hb2 : (2 * ((4 * k + 2 : ℕ) : ℝ) + 1) * (1 - 2 / 10 ^ 6)
        ≤ (2 * ((4 * k + 2 : ℕ) : ℝ) + 1) * c2 := mul_le_mul_of_nonneg_left hc2ge hX2
    have hb3 : (2 * ((4 * k + 3 : ℕ) : ℝ) + 1) * (1 - 2 / 10 ^ 6)
        ≤ (2 * ((4 * k + 3 : ℕ) : ℝ) + 1) * c3 := mul_le_mul_of_nonneg_left hc3ge hX3
    have heq : (2 * ((4 * k : ℕ) : ℝ) + 1) + (2 * ((4 * k + 1 : ℕ) : ℝ) + 1)
        - (2 * ((4 * k + 2 : ℕ) : ℝ) + 1) * (1 - 2 / 10 ^ 6)
        - (2 * ((4 * k + 3 : ℕ) : ℝ) + 1) * (1 - 2 / 10 ^ 6)
        = -8 + (16 * (k : ℝ) + 12) * (2 / 10 ^ 6) := by
      push_cast
      ring
    linarith
  have hle := Finset.sum_le_sum hgroup
  have hrhs : ∑ k ∈ Finset.range 500, (-8 + (16 * (k : ℝ) + 12) * (2 / 10 ^ 6)) < 0 := by
    rw [sum_group_bound]
    norm_num
  exact lt_of_le_of_lt hle hrhs

/-- C7 counterexample: at `ω = π/2 ∈ (0, π)` and `t = 10⁻¹² > 0` the
truncated series value with the default truncation level `L = 2000` is not
strictly positive (it is in fact negative). -/
theorem f_igso3_not_pos_at_small_t :
    0 < Real.pi / 2 ∧ Real.pi / 2 < Real.pi ∧ (0 : ℝ) < 1 / 10 ^ 12 ∧
    ¬ (0 < f_igso3 (Real.pi / 2) (1 / 10 ^ 12) 2000) := by
  have hπ := Real.pi_pos
  exact ⟨by linarith, by linarith, by norm_num,
    not_lt.mpr (le_of_lt f_igso3_pi_half_neg)⟩

/-! ## CDF monotonicity (claim C4) -/

/-- Entry `getD` of a mapped list, inside the length bound. -/
lemma getD_map_eq {α β : Type} (g : α → β) (xs : List α) (d : α) (d' : β) {k : ℕ}
    (h : k < xs.length) : (xs.map g).getD k d' = g (xs.getD k d) := by
  rw [List.getD_eq_getElem?_getD, List.getElem?_map, List.getElem?_eq_getElem h,
    List.getD_eq_getElem?_getD, List.getElem?_eq_getElem h]
  rfl

/-- Prefix sums of a list of nonnegative reals are monotone in the prefix
length. -/
lemma take_sum_mono {xs : List ℝ} (hx : ∀ x ∈ xs, 0 ≤ x) {a b : ℕ} (hab : a ≤ b) :
    (xs.take a).sum ≤ (xs.take b).sum := by
  calc (xs.take a).sum = ((xs.take b).take a).sum := by
        rw [List.take_take, Nat.min_eq_left hab]
    _ ≤ ((xs.take b).take a).sum + ((xs.take b).drop a).sum := by
        apply le_add_of_nonneg_right
        apply List.sum_nonneg
        intro x hxmem
        exact hx x (List.mem_of_mem_take (List.mem_of_mem_drop hxmem))
    _ = (xs.take b).sum := by rw [← List.sum_append, List.take_append_drop]

/-- Length of a pdf row. -/
lemma pdf_row_length (ns nw : ℕ) (mins maxs : ℝ) {i : ℕ} (hi : i < ns) :
    ((pdf_vals ns nw mins maxs).getD i []).length = nw := by
  rw [pdf_vals, getD_map_eq _ _ 0 [] (by simp [discrete_sigma]; omega)]
  simp [discrete_omega]

/-- A cdf row is the scaled `cumsum` of the corresponding pdf row. -/
lemma cdf_row_eq (ns nw : ℕ) (mins maxs : ℝ) {i : ℕ} (hi : i < ns) :
    (cdf_vals ns nw mins maxs).getD i []
      = (cumsum ((pdf_vals ns nw mins maxs).getD i [])).map
          (fun x => x / (nw : ℝ) * Real.pi) := by
  rw [cdf_vals, getD_map_eq _ _ [] [] (by simp [pdf_vals, discrete_sigma]; omega)]

/-- C4 (corrected): for every valid configuration and every σ row whose pdf
values are all nonnegative, the cdf row is non-decreasing along the ω axis.
(For rows with negative pdf values — which occur for very small σ, where
the truncated series itself goes negative — monotonicity can fail; see the
counterexample.) -/
theorem cdf_rows_monotone (ns nw : ℕ) (mins maxs : ℝ) (hns : 1 ≤ ns) (hnw : 1 ≤ nw)
    (h0 : 0 < mins) (hmm : mins < maxs) (i : ℕ) (hi : i < ns)
    (hpdf : ∀ x ∈ (pdf_vals ns nw mins maxs).getD i [], 0 ≤ x)
    (j k : ℕ) (hjk : j ≤ k) (hk : k < nw) :
    ((cdf_vals ns nw mins maxs).getD i []).getD j 0
      ≤ ((cdf_vals ns nw mins maxs).getD i []).getD k 0 := by
  have hrowlen := pdf_row_length ns nw mins maxs hi
  have hclen : (cumsum ((pdf_vals ns nw mins maxs).getD i [])).length = nw := by
    rw [cumsum_length, hrowlen]
  rw [cdf_row_eq ns nw mins maxs hi,
    getD_map_eq _ _ 0 0 (by rw [hclen]; omega),
    getD_map_eq _ _ 0 0 (by rw [hclen]; omega),
    cumsum_getD (by rw [hrowlen]; omega), cumsum_getD (by rw [hrowlen]; omega)]
  have hmono := take_sum_mono hpdf (Nat.succ_le_succ hjk)
  have hπ := Real.pi_pos
  have hnw0 : (0 : ℝ) < (nw : ℝ) := by exact_mod_cast Nat.pos_of_ne_zero (by omega)
  apply mul_le_mul_of_nonneg_right _ (le_of_lt hπ)
  exact (div_le_div_iff_of_pos_right hnw0).mpr hmono

/-- The single σ grid point of `calculate_igso3(1, ·, 1, 10)` is `σ = 10`. -/
lemma discrete_sigma_one_ten : discrete_sigma 1 1 10 = [(10 : ℝ)] := by
  rw [discrete_sigma, show List.range 1 = [0] by rfl, List.map_cons, List.map_nil]
  congr 1
  rw [show Real.logb 10 1 + (((0 : ℕ) : ℝ) + 1) *
      (Real.logb 10 10 - Real.logb 10 1) / ((1 : ℕ) : ℝ) = Real.logb 10 10 by
    push_cast; ring]
  exact Real.rpow_logb (by norm_num) (by norm_num) (by norm_num)

/-- The single ω grid point of `calculate_igso3(·, 1, ·, ·)` is `ω = π`. -/
lemma discrete_omega_one : discrete_omega 1 = [Real.pi] := by
  rw [discrete_omega, show List.range 1 = [0] by rfl, List.map_cons, List.map_nil]
  congr 1
  push_cast
  ring

/-- Witness for `cdf_rows_monotone`: the configuration `num_sigma = 1`,
`num_omega = 1`, `min_sigma = 1`, `max_sigma = 10`, whose single pdf value
`f_igso3(π, 100, 2000)·(1 - cos π)/π` is provably nonnegative. -/
theorem cdf_rows_monotone_witness :
    (∀ x ∈ (pdf_vals 1 1 1 10).getD 0 [], 0 ≤ x) ∧
    ((cdf_vals 1 1 1 10).getD 0 []).getD 0 0
      ≤ ((cdf_vals 1 1 1 10).getD 0 []).getD 0 0 := by
  have hf : 0 < f_igso3 Real.pi 100 2000 := by
    apply f_igso3_pos_of_large_t Real.pi_pos (le_refl _) (by norm_num)
    rw [show Real.pi / 2 = Real.pi / 2 by rfl]
    have h1 := exp_neg_hundred_small
    rw [Real.sin_pi_div_two]
    linarith
  have hpdf : ∀ x ∈ (pdf_vals 1 1 1 10).getD 0 [], 0 ≤ x := by
    rw [pdf_vals, discrete_sigma_one_ten, discrete_omega_one, List.map_cons, List.map_nil,
      List.map_cons, List.map_nil]
    intro x hx
    rw [List.getD_cons_zero] at hx
    rw [List.mem_singleton] at hx
    subst hx
    rw [igso3_density_angle, show ((10 : ℝ) ^ 2) = 100 by norm_num,
      show L_default = 2000 by rfl, Real.cos_pi]
    have hπ := Real.pi_pos
    apply div_nonneg (mul_nonneg (le_of_lt hf) (by norm_num)) (le_of_lt hπ)
  exact ⟨hpdf, cdf_rows_monotone 1 1 1 10 (le_refl 1) (le_refl 1) (by norm_num) (by norm_num)
    0 (by norm_num) hpdf 0 0 (le_refl 0) (by norm_num)⟩

/-- The single σ grid point of
`calculate_igso3(1, ·, 10⁻⁷, 10⁻⁶)` is `σ = 10⁻⁶`. -/
lemma discrete_sigma_tiny : discrete_sigma 1 (1 / 10 ^ 7) (1 / 10 ^ 6) = [(1 / 10 ^ 6 : ℝ)] := by
  rw [discrete_sigma, show List.range 1 = [0] by rfl, List.map_cons, List.map_nil]
  congr 1
  rw [show Real.logb 10 (1 / 10 ^ 7) + (((0 : ℕ) : ℝ) + 1) *
      (Real.logb 10 (1 / 10 ^ 6) - Real.logb 10 (1 / 10 ^ 7)) / ((1 : ℕ) : ℝ)
      = Real.logb 10 (1 / 10 ^ 6) by push_cast; ring]
  exact Real.rpow_logb (by norm_num) (by norm_num) (by norm_num)

/-- C4 counterexample: with the valid configuration `num_sigma = 1`,
`num_omega = 4`, `min_sigma = 10⁻⁷`, `max_sigma = 10⁻⁶`, the first cdf row
strictly decreases from its first to its second entry — the pdf value at
`ω = π/2` is negative because the truncated series is. -/
theorem cdf_row_not_monotone :
    ((cdf_vals 1 4 (1 / 10 ^ 7) (1 / 10 ^ 6)).getD 0 []).getD 1 0
      < ((cdf_vals 1 4 (1 / 10 ^ 7) (1 / 10 ^ 6)).getD 0 []).getD 0 0 := by
  have hrowlen := pdf_row_length 1 4 (1 / 10 ^ 7) (1 / 10 ^ 6) (i := 0) (by norm_num)
  have hclen : (cumsum ((pdf_vals 1 4 (1 / 10 ^ 7) (1 / 10 ^ 6)).getD 0 [])).length = 4 := by
    rw [cumsum_length, hrowlen]
  rw [cdf_row_eq 1 4 (1 / 10 ^ 7) (1 / 10 ^ 6) (by norm_num),
    getD_map_eq _ _ 0 0 (by rw [hclen]; omega),
    getD_map_eq _ _ 0 0 (by rw [hclen]; omega),
    cumsum_getD (by rw [hrowlen]; omega), cumsum_getD (by rw [hrowlen]; omega)]
  have hrow : (pdf_vals 1 4 (1 / 10 ^ 7) (1 / 10 ^ 6)).getD 0 []
      = (discrete_omega 4).map
          (fun w => igso3_density_angle w ((1 / 10 ^ 6 : ℝ) ^ 2) L_default) := by
    rw [pdf_vals, discrete_sigma_tiny, List.map_cons, List.map_nil, List.getD_cons_zero]
  have hω4 : discrete_omega 4
      = [Real.pi * 1 / 4, Real.pi * 2 / 4, Real.pi * 3 / 4, Real.pi * 4 / 4] := by
    rw [discrete_omega, show List.range 4 = [0, 1, 2, 3] by rfl]
    simp only [List.map_cons, List.map_nil]
    norm_num
  have hp1 : igso3_density_angle (Real.pi * 2 / 4) ((1 / 10 ^ 6 : ℝ) ^ 2) L_default < 0 := by
    rw [show Real.pi * 2 / 4 = Real.pi / 2 by ring,
      show ((1 / 10 ^ 6 : ℝ) ^ 2) = 1 / 10 ^ 12 by norm_num,
      show L_default = 2000 by rfl, igso3_density_angle,
      show Real.pi / 2 = Real.pi / 2 by rfl]
    have hcos : Real.cos (Real.pi / 2) = 0 := Real.cos_pi_div_two
    rw [hcos]
    have hf := f_igso3_pi_half_neg
    have hπ := Real.pi_pos
    apply div_neg_of_neg_of_pos _ hπ
    nlinarith
  rw [hrow, hω4]
  simp only [List.map_cons, List.map_nil, List.take, List.sum_cons, List.sum_nil]
  have hπ := Real.pi_pos
  have h4 : ((4 : ℕ) : ℝ) = 4 := by norm_num
  rw [h4]
  nlinarith [hp1]

/-! ## Manifold round trip (claim C8): Euler's rotation theorem

The spec models `Log` as the inverse of the matrix exponential restricted to
angles in `[0, π]`.  The round-trip property `Exp (Log R) = R` for every
rotation matrix `R` therefore amounts to surjectivity of `Exp` (restricted
to `vnorm v ≤ π`) onto SO(3), i.e. Euler's rotation theorem, proved here
from scratch: a fixed axis is extracted from `det (R - 1) = 0`, an
orthonormal frame is built around it, and `R` is identified with the
Rodrigues rotation about that axis. -/

/-- Expanded form of the 3-dimensional dot product. -/
lemma dot_expand (v w : Vec3) :
    Matrix.dotProduct v w = v 0 * w 0 + v 1 * w 1 + v 2 * w 2 := by
  simp [Matrix.dotProduct, Fin.sum_univ_three]

/-- The matrix `hat v` acts on vectors as the cross product with `v`. -/
lemma hat_mulVec (v w : Vec3) : (hat v).mulVec w = cross v w := by
  funext i
  fin_cases i <;>
    simp [hat, cross, Matrix.mulVec, Matrix.dotProduct, Fin.sum_univ_three] <;> ring

/-- The hat map is homogeneous. -/
lemma hat_smul (a : ℝ) (v : Vec3) : hat (a • v) = a • hat v := by
  ext i j
  fin_cases i <;> fin_cases j <;>
    simp [hat, Pi.smul_apply, smul_eq_mul] <;> ring

/-- Self cross product vanishes: `cross v v = 0`. -/
lemma cross_self (v : Vec3) : cross v v = 0 := by
  funext i
  fin_cases i <;> simp [cross] <;> ring

/-- A vector is orthogonal to any cross product with itself on the left. -/
lemma dot_cross_self (n w : Vec3) : Matrix.dotProduct n (cross n w) = 0 := by
  rw [dot_expand]
  simp only [cross]
  simp [Matrix.cons_val_zero, Matrix.cons_val_one]
  ring

/-- Grassmann identity for the double cross product with equal left factors. -/
lemma cross_cross_self (n p : Vec3) :
    cross n (cross n p)
      = Matrix.dotProduct n p • n - Matrix.dotProduct n n • p := by
  funext i
  fin_cases i <;>
    simp [cross, dot_expand, Pi.sub_apply, Pi.smul_apply, smul_eq_mul] <;> ring

/-- A nonzero 3-vector has positive squared norm. -/
lemma dot_self_pos {v : Vec3} (hv : v ≠ 0) : 0 < Matrix.dotProduct v v := by
  rw [dot_expand]
  have hex : v 0 ≠ 0 ∨ v 1 ≠ 0 ∨ v 2 ≠ 0 := by
    by_contra hcon
    push_neg at hcon
    apply hv
    funext i
    fin_cases i
    · exact hcon.1
    · exact hcon.2.1
    · exact hcon.2.2
  rcases hex with h | h | h
  · nlinarith [sq_nonneg (v 0), sq_nonneg (v 1), sq_nonneg (v 2), sq_abs (v 0),
      abs_pos.mpr h, sq_nonneg (|v 0|)]
  · nlinarith [sq_nonneg (v 0), sq_nonneg (v 1), sq_nonneg (v 2), abs_pos.mpr h,
      sq_abs (v 1)]
  · nlinarith [sq_nonneg (v 0), sq_nonneg (v 1), sq_nonneg (v 2), abs_pos.mpr h,
      sq_abs (v 2)]

/-- An orthogonal matrix preserves the dot product. -/
lemma mulVec_dot (R : Mat3) (hR : R.transpose * R = 1) (x y : Vec3) :
    Matrix.dotProduct (R.mulVec x) (R.mulVec y) = Matrix.dotProduct x y := by
  rw [Matrix.dotProduct_mulVec, ← Matrix.mulVec_transpose, Matrix.mulVec_mulVec, hR,
    Matrix.one_mulVec]

/-- The map `Exp` at the zero vector is the identity matrix (the `0/0 = 0`
convention makes both Rodrigues coefficients vanish). -/
lemma Exp_zero : Exp (0 : Vec3) = 1 := by
  have hv : vnorm (0 : Vec3) = 0 := by
    simp [vnorm, dot_expand]
  have hhat : hat (0 : Vec3) = 0 := by
    ext i j
    fin_cases i <;> fin_cases j <;>
      simp [hat, Matrix.vecHead, Matrix.vecTail]
  rw [Exp, hv, hhat]
  simp

/-- Dot product is symmetric. -/
lemma dot_comm (v w : Vec3) : Matrix.dotProduct v w = Matrix.dotProduct w v := by
  rw [dot_expand, dot_expand]
  ring

/-- Lagrange identity for the cross product in dimension three. -/
lemma cross_dot_cross (a b : Vec3) :
    Matrix.dotProduct (cross a b) (cross a b)
      = Matrix.dotProduct a a * Matrix.dotProduct b b - Matrix.dotProduct a b ^ 2 := by
  simp only [dot_expand, cross]
  simp [Matrix.cons_val_zero, Matrix.cons_val_one, Matrix.head_cons]
  ring

/-- A vector is orthogonal to its cross product with anything on the right
slot. -/
lemma dot_cross_right (p n : Vec3) : Matrix.dotProduct p (cross n p) = 0 := by
  rw [dot_expand]
  simp only [cross]
  simp [Matrix.cons_val_zero, Matrix.cons_val_one, Matrix.head_cons]
  ring

/-- Normalizing a nonzero vector yields a unit vector. -/
lemma normalize_unit {u : Vec3} (hu : u ≠ 0) :
    Matrix.dotProduct ((Real.sqrt (Matrix.dotProduct u u))⁻¹ • u)
      ((Real.sqrt (Matrix.dotProduct u u))⁻¹ • u) = 1 := by
  have hdpos := dot_self_pos hu
  set s : ℝ := Real.sqrt (Matrix.dotProduct u u) with hs
  have hsq : 0 < s := Real.sqrt_pos.mpr hdpos
  have hmul : s * s = Matrix.dotProduct u u := Real.mul_self_sqrt (le_of_lt hdpos)
  rw [Matrix.smul_dotProduct, Matrix.dotProduct_smul, smul_eq_mul, smul_eq_mul, ← hmul]
  field_simp

/-- For a rotation matrix, `det (R - 1) = 0`: the proof compares
`det (R - 1)` with `det (Rᵀ - 1)` using orthogonality and `det R = 1`. -/
lemma det_sub_one (R : Mat3) (hO : R.transpose * R = 1) (hdet : R.det = 1) :
    (R - 1).det = 0 := by
  have hdetT : R.transpose.det = 1 := by rw [Matrix.det_transpose, hdet]
  have h2 : R.transpose - 1 = R.transpose * (1 - R) := by
    rw [Matrix.mul_sub, Matrix.mul_one, hO]
  have h3 : (R - 1).det = (R.transpose - 1).det := by
    rw [show R.transpose - 1 = (R - 1).transpose by
      rw [Matrix.transpose_sub, Matrix.transpose_one], Matrix.det_transpose]
  have h4 : (R.transpose - 1).det = (1 - R : Mat3).det := by
    rw [h2, Matrix.det_mul, hdetT, one_mul]
  have h5 : (1 - R : Mat3).det = -(R - 1).det := by
    rw [show (1 - R : Mat3) = -(R - 1) from (neg_sub R 1).symm, Matrix.det_neg]
    norm_num [Fintype.card_fin]
  have := h3.trans (h4.trans h5)
  linarith

/-- Every rotation matrix fixes some unit vector (the rotation axis). -/
lemma exists_axis (R : Mat3) (hO : R.transpose * R = 1) (hdet : R.det = 1) :
    ∃ n : Vec3, Matrix.dotProduct n n = 1 ∧ R.mulVec n = n := by
  have hdet0 := det_sub_one R hO hdet
  obtain ⟨v, hv0, hvker⟩ := (Matrix.exists_mulVec_eq_zero_iff).mpr hdet0
  have hRv : R.mulVec v = v := by
    have h := hvker
    rw [Matrix.sub_mulVec, Matrix.one_mulVec, sub_eq_zero] at h
    exact h
  refine ⟨(Real.sqrt (Matrix.dotProduct v v))⁻¹ • v, normalize_unit hv0, ?_⟩
  rw [Matrix.mulVec_smul, hRv]

/-- Every unit vector admits a unit vector orthogonal to it. -/
lemma exists_perp (n : Vec3) (hn : Matrix.dotProduct n n = 1) :
    ∃ p : Vec3, Matrix.dotProduct n p = 0 ∧ Matrix.dotProduct p p = 1 := by
  have hW : ∃ w : Vec3, cross n w ≠ 0 := by
    by_contra hcon
    push_neg at hcon
    have h0 := hcon ![1, 0, 0]
    have h1 := hcon ![0, 1, 0]
    have e1 : n 2 = 0 := by
      have := congrFun h0 1
      simpa [cross] using this
    have e2 : n 1 = 0 := by
      have := congrFun h0 2
      have h' : n 0 * 0 - n 1 * 1 = 0 := by simpa [cross] using this
      linarith
    have e3 : n 0 = 0 := by
      have := congrFun h1 2
      have h' : n 0 * 1 - n 1 * 0 = 0 := by simpa [cross] using this
      linarith
    rw [dot_expand, e1, e2, e3] at hn
    norm_num at hn
  obtain ⟨w, hw⟩ := hW
  refine ⟨(Real.sqrt (Matrix.dotProduct (cross n w) (cross n w)))⁻¹ • cross n w, ?_,
    normalize_unit hw⟩
  rw [Matrix.dotProduct_smul, dot_cross_self, smul_eq_mul, mul_zero]

/-- The matrix whose rows are an orthonormal frame is orthogonal. -/
lemma frame_mul_transpose {n p q : Vec3}
    (hnn : Matrix.dotProduct n n = 1) (hpp : Matrix.dotProduct p p = 1)
    (hqq : Matrix.dotProduct q q = 1) (hnp : Matrix.dotProduct n p = 0)
    (hnq : Matrix.dotProduct n q = 0) (hpq : Matrix.dotProduct p q = 0) :
    (Matrix.of ![n, p, q]) * (Matrix.of ![n, p, q]).transpose = 1 := by
  have hnn' : n 0 * n 0 + n 1 * n 1 + n 2 * n 2 = 1 := by rw [← dot_expand]; exact hnn
  have hpp' : p 0 * p 0 + p 1 * p 1 + p 2 * p 2 = 1 := by rw [← dot_expand]; exact hpp
  have hqq' : q 0 * q 0 + q 1 * q 1 + q 2 * q 2 = 1 := by rw [← dot_expand]; exact hqq
  have hnp' : n 0 * p 0 + n 1 * p 1 + n 2 * p 2 = 0 := by rw [← dot_expand]; exact hnp
  have hnq' : n 0 * q 0 + n 1 * q 1 + n 2 * q 2 = 0 := by rw [← dot_expand]; exact hnq
  have hpq' : p 0 * q 0 + p 1 * q 1 + p 2 * q 2 = 0 := by rw [← dot_expand]; exact hpq
  ext i j
  fin_cases i <;> fin_cases j <;>
    simp [Matrix.mul_apply, Matrix.transpose_apply, Fin.sum_univ_three,
      Matrix.one_apply, Matrix.of_apply, Matrix.cons_val_zero, Matrix.cons_val_one,
      Matrix.head_cons, Matrix.vecHead, Matrix.vecTail] <;>
    linarith [hnn', hpp', hqq', hnp', hnq', hpq']

/-- Expansion of an arbitrary vector in an orthonormal frame `n, p, q`. -/
lemma orthonormal_expansion {n p q : Vec3}
    (hnn : Matrix.dotProduct n n = 1) (hpp : Matrix.dotProduct p p = 1)
    (hqq : Matrix.dotProduct q q = 1) (hnp : Matrix.dotProduct n p = 0)
    (hnq : Matrix.dotProduct n q = 0) (hpq : Matrix.dotProduct p q = 0) (x : Vec3) :
    x = Matrix.dotProduct n x • n + Matrix.dotProduct p x • p
        + Matrix.dotProduct q x • q := by
  have hBBt := frame_mul_transpose hnn hpp hqq hnp hnq hpq
  have hBtB : (Matrix.of ![n, p, q]).transpose * (Matrix.of ![n, p, q]) = 1 :=
    Matrix.mul_eq_one_comm.mp hBBt
  have hx : ((Matrix.of ![n, p, q]).transpose * (Matrix.of ![n, p, q])).mulVec x = x := by
    rw [hBtB, Matrix.one_mulVec]
  rw [← Matrix.mulVec_mulVec] at hx
  conv_lhs => rw [← hx]
  funext i
  rw [dot_expand, dot_expand, dot_expand]
  fin_cases i <;>
    simp [Matrix.mulVec, Matrix.dotProduct, Fin.sum_univ_three, Matrix.of_apply,
      Matrix.transpose_apply, Matrix.cons_val_zero, Matrix.cons_val_one,
      Matrix.head_cons, Matrix.vecHead, Matrix.vecTail, Pi.add_apply, Pi.smul_apply,
      smul_eq_mul] <;>
    ring

/-- Dot product of two combinations over an orthonormal frame. -/
lemma dot_combo {n p q : Vec3}
    (hnn : Matrix.dotProduct n n = 1) (hpp : Matrix.dotProduct p p = 1)
    (hqq : Matrix.dotProduct q q = 1) (hnp : Matrix.dotProduct n p = 0)
    (hnq : Matrix.dotProduct n q = 0) (hpq : Matrix.dotProduct p q = 0)
    (a b c a' b' c' : ℝ) :
    Matrix.dotProduct (a • n + b • p + c • q) (a' • n + b' • p + c' • q)
      = a * a' + b * b' + c * c' := by
  have hpn := (dot_comm p n).trans hnp
  have hqn := (dot_comm q n).trans hnq
  have hqp := (dot_comm q p).trans hpq
  simp only [Matrix.add_dotProduct, Matrix.dotProduct_add, Matrix.smul_dotProduct,
    Matrix.dotProduct_smul, smul_eq_mul, hnn, hpp, hqq, hnp, hnq, hpq, hpn, hqn, hqp]
  ring

/-- Two matrices that agree on an orthonormal frame are equal. -/
lemma matrix_eq_of_agree {M N : Mat3} {n p q : Vec3}
    (hnn : Matrix.dotProduct n n = 1) (hpp : Matrix.dotProduct p p = 1)
    (hqq : Matrix.dotProduct q q = 1) (hnp : Matrix.dotProduct n p = 0)
    (hnq : Matrix.dotProduct n q = 0) (hpq : Matrix.dotProduct p q = 0)
    (hn : M.mulVec n = N.mulVec n) (hp : M.mulVec p = N.mulVec p)
    (hq : M.mulVec q = N.mulVec q) : M = N := by
  have hall : ∀ x : Vec3, M.mulVec x = N.mulVec x := by
    intro x
    have hx := orthonormal_expansion hnn hpp hqq hnp hnq hpq x
    rw [hx, Matrix.mulVec_add, Matrix.mulVec_add, Matrix.mulVec_smul, Matrix.mulVec_smul,
      Matrix.mulVec_smul, Matrix.mulVec_add, Matrix.mulVec_add, Matrix.mulVec_smul,
      Matrix.mulVec_smul, Matrix.mulVec_smul, hn, hp, hq]
  ext i j
  have h := congrFun (hall (Pi.single j 1)) i
  simpa using h

/-- Any point on the unit circle is `(cos θ, sin θ)` for some `θ ∈ [-π, π]`. -/
lemma exists_cos_sin {α β : ℝ} (h : α ^ 2 + β ^ 2 = 1) :
    ∃ θ : ℝ, |θ| ≤ Real.pi ∧ Real.cos θ = α ∧ Real.sin θ = β := by
  have hα1 : -1 ≤ α := by nlinarith [sq_nonneg β]
  have hα2 : α ≤ 1 := by nlinarith [sq_nonneg β]
  have hsin : Real.sin (Real.arccos α) = |β| := by
    rw [Real.sin_arccos, show 1 - α ^ 2 = β ^ 2 by linarith, Real.sqrt_sq_eq_abs]
  rcases le_or_lt 0 β with hβ | hβ
  · refine ⟨Real.arccos α, ?_, Real.cos_arccos hα1 hα2, ?_⟩
    · rw [abs_of_nonneg (Real.arccos_nonneg α)]
      exact Real.arccos_le_pi α
    · rw [hsin, abs_of_nonneg hβ]
  · refine ⟨-Real.arccos α, ?_, ?_, ?_⟩
    · rw [abs_neg, abs_of_nonneg (Real.arccos_nonneg α)]
      exact Real.arccos_le_pi α
    · rw [Real.cos_neg]
      exact Real.cos_arccos hα1 hα2
    · rw [Real.sin_neg, hsin, abs_of_neg hβ, neg_neg]

/-- Action of the Rodrigues matrix on a vector, in terms of cross
products. -/
lemma rod_mulVec (θ : ℝ) (n x : Vec3) :
    (1 + Real.sin θ • hat n + (1 - Real.cos θ) • (hat n * hat n)).mulVec x
      = x + Real.sin θ • cross n x + (1 - Real.cos θ) • cross n (cross n x) := by
  rw [Matrix.add_mulVec, Matrix.add_mulVec, Matrix.one_mulVec,
    Matrix.smul_mulVec_assoc, Matrix.smul_mulVec_assoc, ← Matrix.mulVec_mulVec,
    hat_mulVec, hat_mulVec]

/-- Rodrigues closed form of `Exp` along a unit axis: for every angle `θ`
(including `θ = 0`),
`Exp (θ • n) = 1 + sin θ • hat n + (1 - cos θ) • (hat n)²`. -/
lemma Exp_smul_unit (θ : ℝ) {n : Vec3} (hn : Matrix.dotProduct n n = 1) :
    Exp (θ • n) = 1 + Real.sin θ • hat n + (1 - Real.cos θ) • (hat n * hat n) := by
  have hvn : vnorm (θ • n) = |θ| := by
    rw [vnorm, Matrix.smul_dotProduct, Matrix.dotProduct_smul, hn, smul_eq_mul,
      smul_eq_mul, mul_one, ← sq, Real.sqrt_sq_eq_abs]
  rw [Exp, hvn, hat_smul]
  rcases eq_or_ne θ 0 with h0 | h0
  · subst h0
    simp
  · have habs : |θ| ≠ 0 := abs_ne_zero.mpr h0
    have hc1 : (Real.sin |θ| / |θ|) • (θ • hat n) = Real.sin θ • hat n := by
      rw [smul_smul]
      congr 1
      rcases abs_cases θ with ⟨he, _⟩ | ⟨he, _⟩
      · rw [he]
        field_simp
      · rw [he, Real.sin_neg]
        field_simp
    have hc2 : ((1 - Real.cos |θ|) / |θ| ^ 2) • ((θ • hat n) * (θ • hat n))
        = (1 - Real.cos θ) • (hat n * hat n) := by
      rw [Matrix.smul_mul, Matrix.mul_smul, smul_smul, smul_smul]
      congr 1
      rw [sq_abs, Real.cos_abs]
      field_simp
      ring
    rw [hc1, hc2]

/-- Cross product with the zero vector. -/
lemma cross_zero (v : Vec3) : cross v 0 = 0 := by
  funext i
  fin_cases i <;> simp [cross]

/-- Cross product is antilinear in sign on the right. -/
lemma cross_neg (a b : Vec3) : cross a (-b) = -cross a b := by
  funext i
  fin_cases i <;> simp [cross] <;> ring

/-- Entry of the frame-conjugated matrix `B R Bᵀ` as a dot product against
the frame rows. -/
lemma conj_entry (R : Mat3) (n p q : Vec3) (i j : Fin 3) :
    (Matrix.of ![n, p, q] * R * (Matrix.of ![n, p, q]).transpose) i j
      = Matrix.dotProduct (![n, p, q] i) (R.mulVec (![n, p, q] j)) := by
  rw [dot_expand]
  simp only [Matrix.mul_apply, Matrix.transpose_apply, Matrix.of_apply,
    Matrix.mulVec, Matrix.dotProduct, Fin.sum_univ_three]
  ring

/-- Euler's rotation theorem, constructively: every rotation matrix is the
Rodrigues exponential of an axis-angle vector of angle at most `π`. -/
lemma exists_rotvec (R : Mat3) (hO : R.transpose * R = 1) (hdet : R.det = 1) :
    ∃ v : Vec3, vnorm v ≤ Real.pi ∧ Exp v = R := by
  obtain ⟨n, hnn, hRn⟩ := exists_axis R hO hdet
  obtain ⟨p, hnp, hpp⟩ := exists_perp n hnn
  have hqq : Matrix.dotProduct (cross n p) (cross n p) = 1 := by
    rw [cross_dot_cross, hnn, hpp, hnp]
    norm_num
  have hnq : Matrix.dotProduct n (cross n p) = 0 := dot_cross_self n p
  have hpq : Matrix.dotProduct p (cross n p) = 0 := dot_cross_right p n
  have hcnq : cross n (cross n p) = -p := by
    rw [cross_cross_self, hnp, hnn]
    simp
  have hdotp := mulVec_dot R hO
  have hnRp : Matrix.dotProduct n (R.mulVec p) = 0 := by
    have h := hdotp n p
    rw [hRn] at h
    exact h.trans hnp
  have hnRq : Matrix.dotProduct n (R.mulVec (cross n p)) = 0 := by
    have h := hdotp n (cross n p)
    rw [hRn] at h
    exact h.trans hnq
  have hRp : R.mulVec p
      = Matrix.dotProduct p (R.mulVec p) • p
        + Matrix.dotProduct (cross n p) (R.mulVec p) • cross n p := by
    have hx := orthonormal_expansion hnn hpp hqq hnp hnq hpq (R.mulVec p)
    rw [hnRp] at hx
    simpa using hx
  have hRq : R.mulVec (cross n p)
      = Matrix.dotProduct p (R.mulVec (cross n p)) • p
        + Matrix.dotProduct (cross n p) (R.mulVec (cross n p)) • cross n p := by
    have hx := orthonormal_expansion hnn hpp hqq hnp hnq hpq (R.mulVec (cross n p))
    rw [hnRq] at hx
    simpa using hx
  -- the four frame coefficients of R on the plane orthogonal to the axis
  set α : ℝ := Matrix.dotProduct p (R.mulVec p) with hαdef
  set β : ℝ := Matrix.dotProduct (cross n p) (R.mulVec p) with hβdef
  set α' : ℝ := Matrix.dotProduct p (R.mulVec (cross n p)) with hα'def
  set β' : ℝ := Matrix.dotProduct (cross n p) (R.mulVec (cross n p)) with hβ'def
  have hpnorm : α * α + β * β = 1 := by
    have h := hdotp p p
    rw [hpp, hRp] at h
    have h2 := dot_combo hnn hpp hqq hnp hnq hpq 0 α β 0 α β
    rw [show (0 : ℝ) • n + α • p + β • cross n p = α • p + β • cross n p by simp] at h2
    rw [h2] at h
    linarith
  have hqnorm : α' * α' + β' * β' = 1 := by
    have h := hdotp (cross n p) (cross n p)
    rw [hqq, hRq] at h
    have h2 := dot_combo hnn hpp hqq hnp hnq hpq 0 α' β' 0 α' β'
    rw [show (0 : ℝ) • n + α' • p + β' • cross n p = α' • p + β' • cross n p by simp] at h2
    rw [h2] at h
    linarith
  have horto : α * α' + β * β' = 0 := by
    have h := hdotp p (cross n p)
    rw [hpq, hRp, hRq] at h
    have h2 := dot_combo hnn hpp hqq hnp hnq hpq 0 α β 0 α' β'
    rw [show (0 : ℝ) • n + α • p + β • cross n p = α • p + β • cross n p by simp,
      show (0 : ℝ) • n + α' • p + β' • cross n p = α' • p + β' • cross n p by simp] at h2
    rw [h2] at h
    linarith
  -- the determinant of R in the frame is +1
  have hBBt := frame_mul_transpose hnn hpp hqq hnp hnq hpq
  have hdetB : (Matrix.of ![n, p, cross n p]).det * (Matrix.of ![n, p, cross n p]).det = 1 := by
    have h := congrArg Matrix.det hBBt
    rw [Matrix.det_mul, Matrix.det_transpose, Matrix.det_one] at h
    exact h
  have hentries : Matrix.of ![n, p, cross n p] * R * (Matrix.of ![n, p, cross n p]).transpose
      = !![1, 0, 0; 0, α, α'; 0, β, β'] := by
    have hpn : Matrix.dotProduct p n = 0 := (dot_comm p n).trans hnp
    have hqn : Matrix.dotProduct (cross n p) n = 0 := (dot_comm (cross n p) n).trans hnq
    ext i j
    rw [conj_entry]
    fin_cases i <;> fin_cases j <;>
      simp [Matrix.vecHead, Matrix.vecTail, hRn, hnn, hnRp, hnRq, hpn, hqn,
        ← hαdef, ← hβdef, ← hα'def, ← hβ'def]
  have hdetM : α * β' - α' * β = 1 := by
    have h := congrArg Matrix.det hentries
    rw [Matrix.det_mul, Matrix.det_mul, Matrix.det_transpose, hdet, mul_one] at h
    have h2 : (!![1, 0, 0; 0, α, α'; 0, β, β'] : Mat3).det = α * β' - α' * β := by
      rw [Matrix.det_fin_three]
      simp [Matrix.cons_val_zero, Matrix.cons_val_one, Matrix.head_cons]
    rw [h2] at h
    rw [hdetB] at h
    linarith
  have hbeta' : β' = α := by
    linear_combination α * hdetM + β * horto - β' * hpnorm
  have halpha' : α' = -β := by
    linear_combination (-β) * hdetM + α * horto - α' * hpnorm
  obtain ⟨θ, hθ, hcosθ, hsinθ⟩ := exists_cos_sin (show α ^ 2 + β ^ 2 = 1 by
    rw [sq, sq]; exact hpnorm)
  refine ⟨θ • n, ?_, ?_⟩
  · rw [vnorm, Matrix.smul_dotProduct, Matrix.dotProduct_smul, hnn, smul_eq_mul,
      smul_eq_mul, mul_one, ← sq, Real.sqrt_sq_eq_abs]
    exact hθ
  · rw [Exp_smul_unit θ hnn]
    apply matrix_eq_of_agree hnn hpp hqq hnp hnq hpq
    · rw [rod_mulVec]
      simp only [cross_self, cross_zero, smul_zero, add_zero]
      rw [hRn]
    · rw [rod_mulVec, hRp, hcnq, hcosθ, hsinθ]
      funext i
      simp only [Pi.add_apply, Pi.smul_apply, Pi.neg_apply, smul_eq_mul]
      ring
    · rw [rod_mulVec, hRq, hcnq, cross_neg, halpha', hbeta', hcosθ, hsinθ]
      funext i
      simp only [Pi.add_apply, Pi.smul_apply, Pi.neg_apply, smul_eq_mul]
      ring

/-- Round trip on SO(3): the spec-modelled `Log` inverts `Exp` on every
valid rotation matrix. -/
lemma roundTrip (R : Mat3) (hO : R.transpose * R = 1) (hdet : R.det = 1) :
    Exp (Log R) = R := by
  have h := exists_rotvec R hO hdet
  rw [Log, dif_pos h]
  exact h.choose_spec.2

/-- C8: for every valid rotation matrix `R` (orthonormal with determinant
`+1`) the round trip `Exp (Log R)` recovers `R` exactly.  In the exact real
arithmetic of this embedding, equality within the spec's `1e-5` tolerance
is exact equality. -/
theorem Exp_Log_roundtrip (R : Mat3) (hO : R.transpose * R = 1) (hdet : R.det = 1) :
    Exp (Log R) = R :=
  roundTrip R hO hdet

/-- Witness for `Exp_Log_roundtrip` at the identity rotation. -/
theorem Exp_Log_roundtrip_witness :
    (1 : Mat3).transpose * 1 = 1 ∧ (1 : Mat3).det = 1 ∧ Exp (Log 1) = 1 := by
  have h1 : (1 : Mat3).transpose * (1 : Mat3) = 1 := by
    rw [Matrix.transpose_one, mul_one]
  have h2 : (1 : Mat3).det = 1 := Matrix.det_one
  exact ⟨h1, h2, Exp_Log_roundtrip 1 h1 h2⟩

/-! ## The score field (claim C9) -/

/-- The Frobenius norm of `hat v` is `√2` times the Euclidean norm of
`v`. -/
lemma frob_hat (v : Vec3) : frob (hat v) = Real.sqrt (2 * Matrix.dotProduct v v) := by
  rw [frob]
  congr 1
  rw [dot_expand]
  simp [hat, Fin.sum_univ_three, Matrix.vecHead, Matrix.vecTail]
  ring

/-- The rotation angle `Omega` equals the Euclidean norm of the rotation
vector `Log R`. -/
lemma Omega_eq (R : Mat3) :
    Omega R = Real.sqrt (Matrix.dotProduct (Log R) (Log R)) := by
  rw [Omega, matlog, frob_hat, Real.sqrt_mul (by norm_num : (0 : ℝ) ≤ 2),
    mul_comm, mul_div_assoc, div_self (by positivity : Real.sqrt 2 ≠ 0), mul_one]

/-- A rotation matrix different from the identity has a positive rotation
angle. -/
lemma Omega_pos_of_ne_one (R : Mat3) (hO : R.transpose * R = 1) (hdet : R.det = 1)
    (hne : R ≠ 1) : 0 < Omega R := by
  have hlog : Log R ≠ 0 := by
    intro h
    apply hne
    have hr := roundTrip R hO hdet
    rw [h, Exp_zero] at hr
    exact hr.symm
  rw [Omega_eq]
  exact Real.sqrt_pos.mpr (dot_self_pos hlog)

/-- C9: for every valid rotation matrix with positive rotation angle, every
`t > 0` and `L ≥ 1`, the score computed by `igso3_score` equals the spec's
formula: the tangent direction `(R · log R)/ω` scaled elementwise by the
scalar `d_logf_d_omega(ω, t, L)`. -/
theorem igso3_score_eq_spec (R : Mat3) (t : ℝ) (L : ℕ)
    (hO : R.transpose * R = 1) (hdet : R.det = 1) (hω : 0 < Omega R)
    (ht : 0 < t) (hL : 1 ≤ L) :
    igso3_score R t L = score_spec R t L := by
  ext i j
  rw [igso3_score, score_spec]
  simp only [Matrix.of_apply, Matrix.smul_apply, smul_eq_mul]
  ring

/-- Witness for `igso3_score_eq_spec` at the 180° rotation about the z
axis, `t = 1`, `L = 2000`. -/
theorem igso3_score_eq_spec_witness :
    (!![-1, 0, 0; 0, -1, 0; 0, 0, 1] : Mat3).transpose
        * !![-1, 0, 0; 0, -1, 0; 0, 0, 1] = 1 ∧
    (!![-1, 0, 0; 0, -1, 0; 0, 0, 1] : Mat3).det = 1 ∧
    0 < Omega !![-1, 0, 0; 0, -1, 0; 0, 0, 1] ∧
    igso3_score !![-1, 0, 0; 0, -1, 0; 0, 0, 1] 1 2000
      = score_spec !![-1, 0, 0; 0, -1, 0; 0, 0, 1] 1 2000 := by
  have hT : (!![-1, 0, 0; 0, -1, 0; 0, 0, 1] : Mat3).transpose
      = !![-1, 0, 0; 0, -1, 0; 0, 0, 1] := by
    ext i j
    fin_cases i <;> fin_cases j <;> rfl
  have hO : (!![-1, 0, 0; 0, -1, 0; 0, 0, 1] : Mat3).transpose
      * !![-1, 0, 0; 0, -1, 0; 0, 0, 1] = 1 := by
    rw [hT, Matrix.mul_fin_three, Matrix.one_fin_three]
    norm_num
  have hdet : (!![-1, 0, 0; 0, -1, 0; 0, 0, 1] : Mat3).det = 1 := by
    rw [Matrix.det_fin_three]
    norm_num
  have hne : (!![-1, 0, 0; 0, -1, 0; 0, 0, 1] : Mat3) ≠ 1 := by
    intro h
    have h00 := congrFun (congrFun h 0) 0
    rw [Matrix.one_apply_eq] at h00
    norm_num at h00
  have hω := Omega_pos_of_ne_one _ hO hdet hne
  exact ⟨hO, hdet, hω,
    igso3_score_eq_spec _ 1 2000 hO hdet hω (by norm_num) (by norm_num)⟩

end Igso3
